import Mathlib

/-!
Shallow embedding of the tree-transformation core of too-many-cells-interactive
(src/react/src/util.ts, src/react/src/prepareData.ts,
src/react/src/hooks/usePrunedTree.ts).

The source manipulates d3-hierarchy `HierarchyNode` values.  The relevant
d3-hierarchy semantics, used throughout and recorded here once:

* `node.copy()` is `hierarchy(this).eachBefore(node => node.data = node.data.data)`:
  it rebuilds fresh `Node` wrappers over the same `data` objects.  The `Node`
  constructor initialises only `data`, `depth`, `height`, `parent`; the `value`
  field (set by a previous `.sum()`) is NOT transferred, so on a copy
  `node.value` is `undefined` for every node, while `node.data` is SHARED with
  the source tree (same object references).
* `node.eachBefore(cb)` pops nodes off a stack, calls `cb(node)` and then pushes
  `node.children`; so a callback that clears the visited node's own `children`
  stops descent there, while a callback that clears `node.parent.children`
  detaches the whole sibling group but does not stop the (already scheduled)
  traversal of those siblings.
* `node.eachAfter(cb)` first collects every node of the tree, then runs the
  callback in post-order (children before parents), so the set of visited nodes
  is fixed before any mutation happens.
* `node.sum(f)` runs post-order and sets `node.value = (+f(node.data) || 0) +`
  the sum of the (freshly computed) children values.
* `node.sort(cmp)` sorts every `children` array in place with
  `Array.prototype.sort`.  The comparators in this code base return `-1` or `1`
  and never `0`; for such a comparator the engine sort (TimSort) produces the
  stable order in which `a` precedes `b` exactly when `cmp(a,b) < 0`, ties
  (where the comparator answers `1` both ways) keeping their original relative
  order.  We model this with a stable insertion sort `jsSortBy`.

JS value conventions used below:

* `Option ℚ` models a JS number slot that may be `undefined`/`null`/non-finite:
  `none` stands for undefined, null, NaN or ±Infinity; every comparison with
  `none` is false (as `undefined < t` and `NaN >= t` are false in JS).
* JS `children = undefined` is modelled as the empty child list: no operation
  or claim in scope distinguishes an `undefined` children slot from an empty
  one (both mean "leaf" to `descendants`, `leaves` and the pruners).
-/

/-- JS strict-less-than against a possibly undefined left operand:
`undefined < t` and `NaN < t` are `false`. -/
def jsLtOpt (v : Option ℚ) (t : ℚ) : Bool :=
  match v with
  | none => false
  | some x => decide (x < t)

/-- The test `!d.data.distance || d.data.distance < distance` from util.ts:
a missing (`null`/`undefined`) distance is falsy, and so is a `0` distance. -/
def distFalsyOrLt (d : Option ℚ) (t : ℚ) : Bool :=
  match d with
  | none => true
  | some x => x == 0 || decide (x < t)

/-- JS addition on possibly non-finite numbers: `none` (undefined/NaN) is
absorbing. -/
def jsAdd (a b : Option ℚ) : Option ℚ :=
  match a, b with
  | some x, some y => some (x + y)
  | _, _ => none

/-- JS division on possibly non-finite numbers: division by zero yields a
non-finite result (±Infinity or NaN), modelled as `none`, and `none` is
absorbing. -/
def jsDiv (a b : Option ℚ) : Option ℚ :=
  match a, b with
  | some x, some y => if y == 0 then none else some (x / y)
  | _, _ => none

/-- First-match association-list lookup, the JS `obj[key]` read. -/
def getA {α : Type} (m : List (String × α)) (k : String) : Option α :=
  match m with
  | [] => none
  | p :: rest => if p.1 == k then some p.2 else getA rest k

/-- `obj[key] || 0` on a numeric record. -/
def getD0 (m : List (String × ℚ)) (k : String) : ℚ :=
  (getA m k).getD 0

/-- `obj[key] || 0` on a count record. -/
def getDN (m : List (String × Nat)) (k : String) : Nat :=
  (getA m k).getD 0

/-- A cell (leaf item): `{_barcode: {unCell, _featureCounts}}` from types.ts,
per the data model the feature-count record maps feature names to numbers. -/
structure CellData where
  unCell : String
  featureCounts : List (String × ℚ)
deriving Repr, DecidableEq

/-- One entry of an `AttributeMap`: `{quantity, scaleKey}`. -/
structure FeatureStat where
  quantity : Option ℚ
  scaleKey : String
deriving Repr, DecidableEq

/-- The data payload (`TMCNode`) carried by every hierarchy node.  `labelCount`
and `featureCount` start empty and are filled by the annotation passes. -/
structure NodeData where
  id : String
  parentId : Option String
  items : Option (List CellData)
  distance : Option ℚ
  significance : Option ℚ
  labelCount : List (String × Nat)
  featureCount : List (String × FeatureStat)
deriving Repr, DecidableEq

/-- The flattened serialized node (`TMCFlatNode`) accepted by `buildTree`. -/
structure TMCFlatNode where
  id : String
  parentId : Option String
  items : Option (List CellData)
  distance : Option ℚ
  significance : Option ℚ
deriving Repr, DecidableEq

/-- `flatten` initialises `labelCount`/`featureCount` to empty records. -/
def TMCFlatNode.toData (f : TMCFlatNode) : NodeData :=
  ⟨f.id, f.parentId, f.items, f.distance, f.significance, [], []⟩

/-- A d3 `HierarchyNode<TMCNode>`: payload `data`, the `value` slot written by
`.sum()` (undefined on a fresh copy), and the ordered children. -/
inductive HNode where
  | node (data : NodeData) (value : Option ℚ) (children : List HNode)
deriving Repr

def HNode.data : HNode → NodeData
  | .node d _ _ => d

def HNode.value : HNode → Option ℚ
  | .node _ v _ => v

def HNode.children : HNode → List HNode
  | .node _ _ cs => cs

mutual
/-- d3 `node.copy()`: fresh wrappers, shared data, `value` dropped. -/
def copyNode : HNode → HNode
  | .node d _ cs => .node d none (copyList cs)
def copyList : List HNode → List HNode
  | [] => []
  | c :: cs => copyNode c :: copyList cs
end

mutual
/-- `node.descendants().length`: the number of nodes of the subtree,
the node itself included. -/
def countNodes : HNode → Nat
  | .node _ _ cs => 1 + countList cs
def countList : List HNode → Nat
  | [] => 0
  | c :: cs => countNodes c + countList cs
end

mutual
/-- The data payloads of `node.descendants()` in preorder. -/
def dataList : HNode → List NodeData
  | .node d _ cs => d :: dataListOf cs
def dataListOf : List HNode → List NodeData
  | [] => []
  | c :: cs => dataList c ++ dataListOf cs
end

mutual
/-- Every subtree of the tree (the tree itself included), in preorder: the
node-level view of `descendants()`. -/
def subtrees : HNode → List HNode
  | .node d v cs => .node d v cs :: subtreesOf cs
def subtreesOf : List HNode → List HNode
  | [] => []
  | c :: cs => subtrees c ++ subtreesOf cs
end

/-- The guard of `pruneTreeByMinValue` fired by some member of a sibling
group: `d.value! < minSize` for some child `d`. -/
def anyValueBelow (m : ℚ) (cs : List HNode) : Bool :=
  cs.any (fun c => jsLtOpt c.value m)

mutual
/-- The net effect of `eachBefore(d => { if (d.value! < minSize) { if
(d.parent) d.parent.children = undefined; } })`: every node of the copy is
visited (clearing a parent's `children` never unschedules the already pushed
siblings), so a node's children end up cleared exactly when some child's
`value` is below the threshold; subtrees hanging below a cleared group are
detached from the result. -/
def minValueStep (m : ℚ) : HNode → HNode
  | .node d v cs =>
    if anyValueBelow m cs then .node d v [] else .node d v (minValueList m cs)
def minValueList (m : ℚ) : List HNode → List HNode
  | [] => []
  | c :: cs => minValueStep m c :: minValueList m cs
end

/-- util.ts `pruneTreeByMinValue`: `tree.copy().eachBefore(...)`. -/
def pruneTreeByMinValue (tree : HNode) (minSize : ℚ) : HNode :=
  minValueStep minSize (copyNode tree)

mutual
/-- util.ts `pruneTreeByMinDistance`: `tree.copy().eachBefore(d => { if
(!d.data.distance || d.data.distance < distance) d.children = undefined; })`.
`eachBefore` reads `d.children` after the callback, so clearing the visited
node's own children prunes the whole subtree below it. -/
def minDistStep (t : ℚ) : HNode → HNode
  | .node d v cs =>
    if distFalsyOrLt d.distance t then .node d v []
    else .node d v (minDistList t cs)
def minDistList (t : ℚ) : List HNode → List HNode
  | [] => []
  | c :: cs => minDistStep t c :: minDistList t cs
end

def pruneTreeByMinDistance (tree : HNode) (distance : ℚ) : HNode :=
  minDistStep distance (copyNode tree)

/-- Some member of a sibling group fails the distance test of
`pruneTreeByMinDistanceSearch`. -/
def anyDistFails (t : ℚ) (cs : List HNode) : Bool :=
  cs.any (fun c => distFalsyOrLt c.data.distance t)

mutual
/-- util.ts `pruneTreeByMinDistanceSearch`: `tree.copy().eachAfter(d => { if
(!d.data.distance || d.data.distance < distance) { if (d.parent)
d.parent.children = undefined; } })`.  `eachAfter` fixes the node list before
the callbacks run, so every node is visited and a node's children end up
cleared exactly when some child fails the distance test. -/
def minDistSearchStep (t : ℚ) : HNode → HNode
  | .node d v cs =>
    if anyDistFails t cs then .node d v []
    else .node d v (minDistSearchList t cs)
def minDistSearchList (t : ℚ) : List HNode → List HNode
  | [] => []
  | c :: cs => minDistSearchStep t c :: minDistSearchList t cs
end

def pruneTreeByMinDistanceSearch (tree : HNode) (distance : ℚ) : HNode :=
  minDistSearchStep distance (copyNode tree)

mutual
/-- util.ts `pruneTreeByDepth`: `tree.copy().eachAfter(d => { if (d.depth >
depth && d.parent) d.parent!.children = undefined; })`.  A node's children are
cleared exactly when some child's depth exceeds the limit, i.e. when the
node's own depth is at least the limit. -/
def depthStep (limit : ℚ) (cur : ℚ) : HNode → HNode
  | .node d v cs =>
    if decide (cur + 1 > limit) then .node d v []
    else .node d v (depthList limit (cur + 1) cs)
def depthList (limit : ℚ) (cur : ℚ) : List HNode → List HNode
  | [] => []
  | c :: cs => depthStep limit cur c :: depthList limit cur cs
end

def pruneTreeByDepth (tree : HNode) (depth : ℚ) : HNode :=
  depthStep depth 0 (copyNode tree)

mutual
/-- util.ts `collapseNode`: `tree.copy().eachAfter(n => { if (n.data.id ===
nodeId) n.children = undefined; })`.  Ids are unique per build (uuid), so at
most one reachable node is cleared. -/
def collapseStep (nodeId : String) : HNode → HNode
  | .node d v cs =>
    if d.id == nodeId then .node d v []
    else .node d v (collapseList nodeId cs)
def collapseList (nodeId : String) : List HNode → List HNode
  | [] => []
  | c :: cs => collapseStep nodeId c :: collapseList nodeId cs
end

def collapseNode (tree : HNode) (nodeId : String) : HNode :=
  collapseStep nodeId (copyNode tree)

mutual
/-- d3 `tree.find(n => n.data.id === nodeId)`: the first node whose data id
matches (ids are unique per build, so the visit order is immaterial). -/
def findById : HNode → String → Option HNode
  | .node d v cs, nodeId =>
    if d.id == nodeId then some (.node d v cs) else findByIdList cs nodeId
def findByIdList : List HNode → String → Option HNode
  | [], _ => none
  | c :: cs, nodeId =>
    match findById c nodeId with
    | some r => some r
    | none => findByIdList cs nodeId
end

mutual
/-- The write `targetNode.data.parentId = undefined` lands on the data object
of the found node, which `copy()` SHARES with the source tree: observed
through the source tree, the node with the given id has lost its stored
`parentId`. -/
def eraseParentId (nodeId : String) : HNode → HNode
  | .node d v cs =>
    if d.id == nodeId then .node { d with parentId := none } v cs
    else .node d v (eraseParentIdList nodeId cs)
def eraseParentIdList (nodeId : String) : List HNode → List HNode
  | [] => []
  | c :: cs => eraseParentId nodeId c :: eraseParentIdList nodeId cs
end

/-- util.ts `setRootNode`: find the node, `copy()` it, null its parent link and
clear `data.parentId`.  Because the copy shares data objects with the source
tree, the `parentId` write is visible through the source tree as well; the
first component is the source tree as observable after the call, the second
the returned re-rooted tree. -/
def setRootNode (tree : HNode) (nodeId : String) : Option (HNode × HNode) :=
  match findById tree nodeId with
  | none => none
  | some target =>
    some (eraseParentId nodeId tree, eraseParentId nodeId (copyNode target))

/-- Insertion of one element under the engine-sort order for a `-1`/`1`
comparator: the element goes before the first list member it strictly
precedes. -/
def insertBy {α : Type} (lt : α → α → Bool) (x : α) : List α → List α
  | [] => [x]
  | y :: ys => if lt x y then x :: y :: ys else y :: insertBy lt x ys

/-- The engine sort for a `-1`/`1` comparator (see the header note): stable, and
`a` precedes `b` exactly when the comparator answers `-1` on `(a, b)`. -/
def jsSortBy {α : Type} (lt : α → α → Bool) (l : List α) : List α :=
  l.foldl (fun acc x => insertBy lt x acc) []

/-- The node's own item count, `a.data.items ? a.data.items.length : 0`, used
by the `buildTree` sibling comparator. -/
def ownItemCount (c : HNode) : Nat :=
  match c.data.items with
  | some its => its.length
  | none => 0

/-- The `buildTree` comparator `(a, b) => aval > bval ? -1 : 1` read as "`a`
strictly precedes `b`". -/
def childLt (a b : HNode) : Bool :=
  decide (ownItemCount a > ownItemCount b)

mutual
/-- d3 `node.sort(cmp)` with the `buildTree` comparator: every children array
of the tree is sorted in place.  The comparator reads only `data.items`, which
no recursive call changes, so sorting the recursively sorted children equals
d3's preorder in-place pass. -/
def sortNode : HNode → HNode
  | .node d v cs => .node d v (jsSortBy childLt (sortList cs))
def sortList : List HNode → List HNode
  | [] => []
  | c :: cs => sortNode c :: sortList cs
end

/-- The `.sum` accessor of `buildTree`: `d => (d.items ? d.items.length : 0)`. -/
def sumAccessor (d : NodeData) : ℚ :=
  match d.items with
  | some its => its.length
  | none => 0

/-- The sum of the (just recomputed) children values, as read by `node.sum`. -/
def childValueSum (cs : List HNode) : ℚ :=
  (cs.map (fun c => c.value.getD 0)).sum

mutual
/-- d3 `node.sum(f)`: post-order, `node.value = (+f(node.data) || 0) + Σ`
children values. -/
def sumNode : HNode → HNode
  | .node d _ cs =>
    let cs' := sumList cs
    .node d (some (sumAccessor d + childValueSum cs')) cs'
def sumList : List HNode → List HNode
  | [] => []
  | c :: cs => sumNode c :: sumList cs
end

/-- The nodes of the flat list whose `parentId` names the given id, in input
order — d3 `stratify` attaches children in input order. -/
def childRows (nodes : List TMCFlatNode) (pid : String) : List TMCFlatNode :=
  nodes.filter (fun c => c.parentId == some pid)

/-- Recursive reconstruction of the subtree below one flat node.  `stratify`
links children by `parentId`; the fuel (bounded by the list length, sufficient
for every acyclic input) only makes the descent structural. -/
def stratifyFrom (nodes : List TMCFlatNode) : Nat → TMCFlatNode → HNode
  | 0, f => .node f.toData none []
  | fuel + 1, f =>
    .node f.toData none ((childRows nodes f.id).map (stratifyFrom nodes fuel))

/-- d3 `stratify()(nodes)`: fails (`MalformedTreeError`) unless there is
exactly one root, ids are unambiguous and every `parentId` names an existing
id. -/
def stratify (nodes : List TMCFlatNode) : Option HNode :=
  if (nodes.map (fun n => n.id)).Nodup ∧
      nodes.all (fun n =>
        match n.parentId with
        | none => true
        | some p => nodes.any (fun m => m.id == p)) then
    match nodes.filter (fun n => n.parentId == none) with
    | [r] => some (stratifyFrom nodes nodes.length r)
    | _ => none
  else none

/-- prepareData.ts `buildTree`: stratify, normalize sibling order, then compute
subtree values.  (`sort` runs before `sum`, so the comparator can only see raw
`data.items`.) -/
def buildTree (nodes : List TMCFlatNode) : Option HNode :=
  (stratify nodes).map (fun t => sumNode (sortNode t))

/-- JS `String.split` with a one-character separator, on the character list:
`"a,b" ↦ ["a", "b"]`, `"" ↦ [""]`, a trailing separator yields a trailing
empty field. -/
def splitOnChar (sep : Char) : List Char → List (List Char)
  | [] => [[]]
  | c :: cs =>
    if c = sep then [] :: splitOnChar sep cs
    else
      match splitOnChar sep cs with
      | [] => [[c]]
      | g :: gs => (c :: g) :: gs

/-- JS `String.split` with a one-character separator. -/
def splitString (sep : Char) (s : String) : List String :=
  (splitOnChar sep s.data).map (fun l => ⟨l⟩)

/-- One data row of the label CSV: `const [k, v] = l.split(',')`; a row without
a comma leaves `v` undefined. -/
def parseRow (l : String) : String × Option String :=
  match splitString ',' l with
  | [] => ("", none)
  | k :: rest => (k, rest.head?)

/-- `labelMap[k] = v`: JS property assignment overwrites a previous binding. -/
def mapSet (m : List (String × Option String)) (kv : String × Option String) :
    List (String × Option String) :=
  m.filter (fun p => p.1 != kv.1) ++ [kv]

/-- prepareData.ts label-map construction: split the CSV on newlines, skip the
header row, bind `k ↦ v` for each remaining row. -/
def buildLabelMap (csv : String) : List (String × Option String) :=
  ((splitString '\n' csv).drop 1).foldl (fun m l => mapSet m (parseRow l)) []

/-- The JS object key produced by `acc[labelMap[barcode]]`: a missing binding
(or a bound `undefined` from a malformed row) reads as `undefined`, which
string-coerces to the literal key `"undefined"`. -/
def labelKey (lm : List (String × Option String)) (barcode : String) : String :=
  match getA lm barcode with
  | some (some v) => v
  | some none => "undefined"
  | none => "undefined"

/-- `{...acc, [k]: (acc[k] || 0) + 1}`: increment in place (object spread keeps
the original insertion position of an existing key) or append a fresh key. -/
def bump (m : List (String × Nat)) (k : String) : List (String × Nat) :=
  if m.any (fun p => p.1 == k) then
    m.map (fun p => if p.1 == k then (p.1, p.2 + 1) else p)
  else m ++ [(k, 1)]

/-- The leaf branch of the `getData` label pass: tally every item under the
label the map assigns to its barcode. -/
def leafLabelCount (lm : List (String × Option String)) (items : List CellData) :
    List (String × Nat) :=
  items.foldl (fun acc cell => bump acc (labelKey lm cell.unCell)) []

/-- util.ts `merge`: `[...new Set([...keys(a), ...keys(b)])` (first-occurrence
order) re-keyed to `(a[k] || 0) + (b[k] || 0)`. -/
def dedupFirst (seen : List String) : List String → List String
  | [] => []
  | k :: ks =>
    if seen.contains k then dedupFirst seen ks
    else k :: dedupFirst (k :: seen) ks

def merge (a b : List (String × Nat)) : List (String × Nat) :=
  (dedupFirst [] (a.map Prod.fst ++ b.map Prod.fst)).map
    (fun k => (k, getDN a k + getDN b k))

mutual
/-- The `eachAfter` label pass of prepareData.ts `getData`: a node with truthy
`items` tallies its items by mapped label; otherwise the children's (already
computed) `labelCount`s are folded with `merge` starting from `{}`.  (A node
with neither items nor children would throw in JS on `undefined.reduce`; the
model returns the empty tally — no claim involves such nodes.) -/
def annotateLabels (lm : List (String × Option String)) : HNode → HNode
  | .node d v cs =>
    let cs' := annotateLabelsList lm cs
    let lc :=
      match d.items with
      | some its => leafLabelCount lm its
      | none => cs'.foldl (fun acc c => merge acc c.data.labelCount) []
    .node { d with labelCount := lc } v cs'
def annotateLabelsList (lm : List (String × Option String)) :
    List HNode → List HNode
  | [] => []
  | c :: cs => annotateLabels lm c :: annotateLabelsList lm cs
end

/-- prepareData.ts `getData` up to the parts the claims are about: build the
tree from the flattened nodes, then run the label pass with the parsed label
map.  (The trailing `eachBefore` only writes debug `nodeId`s, not modelled.) -/
def getData (csv : String) (flat : List TMCFlatNode) : Option HNode :=
  (buildTree flat).map (annotateLabels (buildLabelMap csv))

/-- The hi/lo test of the per-cell category key in usePrunedTree.ts:
`v && v >= thresholds[k]` — a zero value is falsy, a missing threshold makes
the comparison false. -/
def hiLoTest (thresholds : List (String × ℚ)) (k : String) (v : ℚ) : Bool :=
  (v != 0) &&
    (match getA thresholds k with
     | some τ => decide (v ≥ τ)
     | none => false)

/-- One `-${'high'|'low'}-${k}` reduction step body (without the leading
separator handling). -/
def hiLoPiece (thresholds : List (String × ℚ)) (p : String × ℚ) : String :=
  (if hiLoTest thresholds p.1 p.2 then "high" else "low") ++ "-" ++ p.1

/-- The per-cell composite category key of `updateFeatureCounts`
(usePrunedTree.ts): filter the cell's feature counts to the active features,
sort the entries by key with the `-1`/`1` comparator, and fold the hi/lo
pieces into a `-`-joined string. -/
def cellKey (thresholds : List (String × ℚ)) (active : List String)
    (fcounts : List (String × ℚ)) : String :=
  (jsSortBy (fun a b => decide (a.1 < b.1))
      (fcounts.filter (fun p => active.contains p.1))).foldl
    (fun acc p =>
      (if acc == "" then "" else acc ++ "-") ++ hiLoPiece thresholds p) ""

/-- Add one cell's key to the node's running `hilo` tally: skipped when the
key is the empty (falsy) string, otherwise increment or insert
`{scaleKey: key, quantity: 1}`. -/
def addToHilo (hilo : List (String × FeatureStat)) (key : String) :
    List (String × FeatureStat) :=
  if key == "" then hilo
  else
    match getA hilo key with
    | some _ =>
      hilo.map (fun p =>
        if p.1 == key then
          (p.1, { p.2 with quantity := jsAdd p.2.quantity (some 1) })
        else p)
    | none => hilo ++ [(key, ⟨some 1, key⟩)]

/-- The leaf branch of `updateFeatureCounts`: tally all items by their
composite key. -/
def leafHiLos (thresholds : List (String × ℚ)) (active : List String)
    (items : List CellData) : List (String × FeatureStat) :=
  items.foldl (fun hilo cell =>
    addToHilo hilo (cellKey thresholds active cell.featureCounts)) []

/-- The internal-node branch of `updateFeatureCounts`: for each key of one
child's `featureCount`, add its quantity into the running tally (insert when
absent). -/
def mergeHilo (hilo count : List (String × FeatureStat)) :
    List (String × FeatureStat) :=
  count.foldl (fun h p =>
    match getA h p.1 with
    | some _ =>
      h.map (fun q =>
        if q.1 == p.1 then
          (q.1, { q.2 with quantity := jsAdd q.2.quantity p.2.quantity })
        else q)
    | none => h ++ [p]) hilo

mutual
/-- usePrunedTree.ts `updateFeatureCounts` (the multi-feature hi/lo version,
lines 423-470 of the first revision): post-order; leaves tally their items by
composite key, internal nodes fold their children's `featureCount`s. -/
def updateFeatureCounts (thresholds : List (String × ℚ))
    (active : List String) : HNode → HNode
  | .node d v cs =>
    let cs' := updateFeatureCountsList thresholds active cs
    let hilo :=
      match d.items with
      | some its => leafHiLos thresholds active its
      | none => cs'.foldl (fun h c => mergeHilo h c.data.featureCount) []
    .node { d with featureCount := hilo } v cs'
def updateFeatureCountsList (thresholds : List (String × ℚ))
    (active : List String) : List HNode → List HNode
  | [] => []
  | c :: cs =>
    updateFeatureCounts thresholds active c ::
      updateFeatureCountsList thresholds active cs
end

/-- `items.reduce((acc, curr) => acc += curr._barcode._featureCounts[feature]
|| 0, 0)` of the single-feature annotator. -/
def itemFeatureSum (feature : String) (items : List CellData) : ℚ :=
  (items.map (fun cell => getD0 cell.featureCounts feature)).sum

mutual
/-- usePrunedTree.ts `updateFeatureCounts` (the single-feature average version,
lines 1045-1072 of the second revision), modelled in `Option`: `none` is the
thrown `TypeError`.  A non-leaf (`data.items` falsy) node reads exactly
`children[0]` and `children[1]`; with fewer than two children the access
`children[1].data` (or `children.map` on an undefined slot) throws.  The
divisor is `n.descendants().length - 1`; the node's `value` divides the leaf
sum and is `undefined` (`none`, giving NaN) whenever the pass runs on a fresh
copy. -/
def updateFeatureCountsSingle (feature : String) : HNode → Option HNode
  | .node d v cs =>
    match updateFeatureCountsSingleList feature cs with
    | none => none
    | some cs' =>
      match d.items with
      | some its =>
        some (.node
          { d with featureCount :=
              [(feature, ⟨jsDiv (some (itemFeatureSum feature its)) v,
                feature⟩)] } v cs')
      | none =>
        match cs' with
        | c0 :: c1 :: _ =>
          match getA c0.data.featureCount feature,
              getA c1.data.featureCount feature with
          | some s0, some s1 =>
            some (.node
              { d with featureCount :=
                  [(feature,
                    ⟨jsDiv (jsAdd s0.quantity s1.quantity)
                      (some ((countNodes (.node d v cs) : ℚ) - 1)),
                    feature⟩)] } v cs')
          | _, _ => none
        | _ => none
def updateFeatureCountsSingleList (feature : String) :
    List HNode → Option (List HNode)
  | [] => some []
  | c :: cs =>
    match updateFeatureCountsSingle feature c,
        updateFeatureCountsSingleList feature cs with
    | some c', some cs' => some (c' :: cs')
    | _, _ => none
end


/-- `items.length` of a data payload, `0` when there are no items. -/
def dataItemLen (d : NodeData) : Nat :=
  match d.items with
  | some its => its.length
  | none => 0

mutual
/-- The total `items.length` over the leaf descendants of a node (a childless
node is its own leaf descendant; a leaf without items contributes 0). -/
def leafItemSum : HNode → Nat
  | .node d _ cs => if cs.isEmpty then dataItemLen d else leafItemSumList cs
def leafItemSumList : List HNode → Nat
  | [] => 0
  | c :: cs => leafItemSum c + leafItemSumList cs
end

mutual
/-- Boolean form of the data-model invariant "items is non-nil only for
leaves": every node with children carries no items. -/
def itemsOnlyB : HNode → Bool
  | .node d _ cs => (cs.isEmpty || d.items.isNone) && itemsOnlyListB cs
def itemsOnlyListB : List HNode → Bool
  | [] => true
  | c :: cs => itemsOnlyB c && itemsOnlyListB cs
end

mutual
/-- Every node of a tree paired with the flag "every proper ancestor passes
the distance test", the spec-side reading of min-distance pruning: the nodes
that survive are the input nodes minus the strict descendants of failing
nodes. -/
def ancAnnot (t : ℚ) (ok : Bool) : HNode → List (NodeData × Bool)
  | .node d _ cs =>
    (d, ok) :: ancAnnotList t (ok && !distFalsyOrLt d.distance t) cs
def ancAnnotList (t : ℚ) (ok : Bool) : List HNode → List (NodeData × Bool)
  | [] => []
  | c :: cs => ancAnnot t ok c ++ ancAnnotList t ok cs
end

/-- Join a list of non-empty fragments with `-`. -/
def dashJoin : List String → String
  | [] => ""
  | [x] => x
  | x :: xs => x ++ "-" ++ dashJoin xs

/-- The category key as the spec sentence describes it: sort the active
feature names lexicographically and join, for each feature, `high-<name>`
when the item's value for it reaches the feature's threshold and `low-<name>`
otherwise, with `-`. -/
def specCellKey (thresholds : List (String × ℚ)) (active : List String)
    (fcounts : List (String × ℚ)) : String :=
  dashJoin
    ((jsSortBy (fun a b => decide (a < b)) active).map (fun f =>
      (if (getA thresholds f).getD 0 ≤ (getA fcounts f).getD 0 then "high"
       else "low") ++ "-" ++ f))

/-- The scenario tree of the spec: `A(dist null) -> [B(dist 1, items [x]),
C(dist 3, items [y, z])]` with the values `3 / 1 / 2` a previous `.sum()`
computed. -/
def scenarioTree : HNode :=
  .node ⟨"A", none, none, none, none, [], []⟩ (some 3)
    [.node ⟨"B", some "A", some [⟨"x", []⟩], some 1, none, [], []⟩ (some 1) [],
     .node ⟨"C", some "A", some [⟨"y", []⟩, ⟨"z", []⟩], some 3, none, [], []⟩
       (some 2) []]

/-- A flat input for `buildTree`: root `R` with a leaf child `L` holding one
item and an internal child `I` whose own leaf `J` holds five items, so `I`'s
subtree item count (5) exceeds `L`'s (1) while `I` itself holds no items. -/
def flatCex : List TMCFlatNode :=
  [⟨"R", none, none, none, none⟩,
   ⟨"L", some "R", some [⟨"x", []⟩], some 1, none⟩,
   ⟨"I", some "R", none, some 2, none⟩,
   ⟨"J", some "I",
     some [⟨"a", []⟩, ⟨"b", []⟩, ⟨"c", []⟩, ⟨"d", []⟩, ⟨"e", []⟩],
     some 3, none⟩]

/-- The label CSV of the spec scenario. -/
def scenarioCsv : String := "id,label\n1,red\n2,blue"

/-- A two-node source tree (root `r`, leaf child `c` storing `parentId = "r"`)
used to observe `setRootNode`'s write-through. -/
def srcTree : HNode :=
  .node ⟨"r", none, none, none, none, [], []⟩ (some 1)
    [.node ⟨"c", some "r", some [⟨"x", []⟩], some 1, none, [], []⟩ (some 1) []]

/-- A tree whose internal node has a single child: the single-feature
annotator dereferences `children[1]` there. -/
def oneChildTree : HNode :=
  .node ⟨"p", none, none, none, none, [], []⟩ none
    [.node ⟨"l", some "p", some [⟨"1", [("F", 4)]⟩], none, none, [], []⟩
      none []]

/-- A binary tree accepted by the single-feature annotator. -/
def twoChildTree : HNode :=
  .node ⟨"p", none, none, none, none, [], []⟩ none
    [.node ⟨"l", some "p", some [⟨"1", [("F", 4)]⟩], none, none, [], []⟩
      (some 1) [],
     .node ⟨"m", some "p", some [⟨"2", [("F", 2)]⟩], none, none, [], []⟩
      (some 1) []]

/-- A root with three leaf children whose third leaf carries feature value
100: used to observe that the single-feature average at the root ignores the
third child. -/
def threeChildTreeA : HNode :=
  .node ⟨"p", none, none, none, none, [], []⟩ none
    [.node ⟨"l", some "p", some [⟨"1", [("F", 4)]⟩], none, none, [], []⟩
      (some 1) [],
     .node ⟨"m", some "p", some [⟨"2", [("F", 2)]⟩], none, none, [], []⟩
      (some 1) [],
     .node ⟨"n", some "p", some [⟨"3", [("F", 100)]⟩], none, none, [], []⟩
      (some 1) []]

/-- Same tree as `threeChildTreeA` except the third leaf's feature value is 0
instead of 100. -/
def threeChildTreeB : HNode :=
  .node ⟨"p", none, none, none, none, [], []⟩ none
    [.node ⟨"l", some "p", some [⟨"1", [("F", 4)]⟩], none, none, [], []⟩
      (some 1) [],
     .node ⟨"m", some "p", some [⟨"2", [("F", 2)]⟩], none, none, [], []⟩
      (some 1) [],
     .node ⟨"n", some "p", some [⟨"3", [("F", 0)]⟩], none, none, [], []⟩
      (some 1) []]

/-- A small well-formed tree (items only on leaves) for witnesses: `A` over
leaves `B` (one item) and `C` (two items). -/
def witnessTree : HNode :=
  .node ⟨"A", none, none, none, none, [], []⟩ none
    [.node ⟨"B", some "A", some [⟨"1", []⟩], some 1, none, [], []⟩ none [],
     .node ⟨"C", some "A", some [⟨"2", []⟩, ⟨"3", []⟩], some 3, none, [], []⟩
       none []]

/-! ## Basic lemmas about `copy` and the value pruner -/

theorem copyNode_value (t : HNode) : (copyNode t).value = none := by
  cases t with
  | node d v cs => simp [copyNode, HNode.value]

mutual
theorem countNodes_copy (t : HNode) : countNodes (copyNode t) = countNodes t := by
  cases t with
  | node d v cs => simp only [copyNode, countNodes, countList_copy]
theorem countList_copy (cs : List HNode) :
    countList (copyList cs) = countList cs := by
  cases cs with
  | nil => rfl
  | cons c cs =>
    simp only [copyList, countList, countNodes_copy, countList_copy]
end

mutual
theorem dataList_copy (t : HNode) : dataList (copyNode t) = dataList t := by
  cases t with
  | node d v cs => simp only [copyNode, dataList, dataListOf_copy]
theorem dataListOf_copy (cs : List HNode) :
    dataListOf (copyList cs) = dataListOf cs := by
  cases cs with
  | nil => rfl
  | cons c cs =>
    simp only [copyList, dataListOf, dataList_copy, dataListOf_copy]
end

mutual
theorem copyNode_copyNode (t : HNode) : copyNode (copyNode t) = copyNode t := by
  cases t with
  | node d v cs => simp only [copyNode, copyList_copyList]
theorem copyList_copyList (cs : List HNode) :
    copyList (copyList cs) = copyList cs := by
  cases cs with
  | nil => rfl
  | cons c cs =>
    simp only [copyList, copyNode_copyNode, copyList_copyList]
end

/-- On a fresh copy every `value` is undefined, so the guard of
`pruneTreeByMinValue` can never fire. -/
theorem anyValueBelow_copyList (m : ℚ) (cs : List HNode) :
    anyValueBelow m (copyList cs) = false := by
  induction cs with
  | nil => rfl
  | cons c cs ih =>
    simp only [copyList, anyValueBelow, List.any_cons, copyNode_value, jsLtOpt,
      Bool.false_or]
    simpa only [anyValueBelow] using ih

mutual
theorem minValueStep_copy (m : ℚ) (t : HNode) :
    minValueStep m (copyNode t) = copyNode t := by
  cases t with
  | node d v cs =>
    simp only [copyNode, minValueStep, anyValueBelow_copyList,
      Bool.false_eq_true, if_false, minValueList_copy]
theorem minValueList_copy (m : ℚ) (cs : List HNode) :
    minValueList m (copyList cs) = copyList cs := by
  cases cs with
  | nil => rfl
  | cons c cs =>
    simp only [copyList, minValueList, minValueStep_copy, minValueList_copy]
end

/-- `pruneTreeByMinValue` reduces to a plain `copy`: the copy drops every
`value`, so `d.value! < minSize` is the JS comparison `undefined < minSize`,
which is false at every node. -/
theorem pruneTreeByMinValue_eq_copy (tree : HNode) (m : ℚ) :
    pruneTreeByMinValue tree m = copyNode tree :=
  minValueStep_copy m tree

/-! ## C1, C5, C6, C7 -/

/-- C1 counterexample: on the spec scenario tree `A -> [B(value 1),
C(value 2)]`, pruning with threshold 2 is claimed to remove exactly `B` and
yield the two-node tree `{A, C}`; the code keeps all three nodes (`B`
included), because `copy()` drops the `value` field the guard tests. -/
theorem claim1_counterexample :
    countNodes (pruneTreeByMinValue scenarioTree 2) = 3 ∧
    (dataList (pruneTreeByMinValue scenarioTree 2)).map NodeData.id =
      ["A", "B", "C"] := by
  exact ⟨rfl, rfl⟩

/-- C1 amended: for every tree and every threshold, `pruneTreeByMinValue`
detaches nothing at all — it returns a value-stripped copy of its input with
every node (and its data) in place, since on the copy every `value` is
undefined and `undefined < t` is false. -/
theorem claim1_amended (tree : HNode) (m : ℚ) :
    pruneTreeByMinValue tree m = copyNode tree ∧
    countNodes (pruneTreeByMinValue tree m) = countNodes tree ∧
    dataList (pruneTreeByMinValue tree m) = dataList tree := by
  refine ⟨pruneTreeByMinValue_eq_copy tree m, ?_, ?_⟩
  · rw [pruneTreeByMinValue_eq_copy, countNodes_copy]
  · rw [pruneTreeByMinValue_eq_copy, dataList_copy]

/-- C5: for every tree and every threshold, re-applying
`pruneTreeByMinValue` with the same threshold leaves the descendant count of a
single application unchanged (degenerately so: the pruner never removes a
node, both sides equal the input's node count). -/
theorem claim5_idempotent (tree : HNode) (t : ℚ) :
    countNodes (pruneTreeByMinValue (pruneTreeByMinValue tree t) t) =
      countNodes (pruneTreeByMinValue tree t) := by
  rw [pruneTreeByMinValue_eq_copy tree t, pruneTreeByMinValue_eq_copy,
    copyNode_copyNode]

/-- C6: for thresholds `t1 < t2`, the nodes of the `t2`-pruned tree are among
the nodes of the `t1`-pruned tree and the descendant count is non-increasing
in the threshold (degenerately: both prunes keep every node of the input). -/
theorem claim6_monotone (tree : HNode) (t1 t2 : ℚ) (h : t1 < t2) :
    (∀ d ∈ dataList (pruneTreeByMinValue tree t2),
      d ∈ dataList (pruneTreeByMinValue tree t1)) ∧
    countNodes (pruneTreeByMinValue tree t2) ≤
      countNodes (pruneTreeByMinValue tree t1) := by
  rw [pruneTreeByMinValue_eq_copy tree t1, pruneTreeByMinValue_eq_copy tree t2]
  exact ⟨fun d hd => hd, le_refl _⟩

/-- C6 witness: the monotonicity theorem applied at the scenario tree with
the satisfiable thresholds `1 < 2`. -/
theorem claim6_witness :
    (1 : ℚ) < 2 ∧
    countNodes (pruneTreeByMinValue scenarioTree 2) ≤
      countNodes (pruneTreeByMinValue scenarioTree 1) :=
  ⟨by norm_num, (claim6_monotone scenarioTree 1 2 (by norm_num)).2⟩

/-- C7, evaluation at the failing input: before the call, the source tree
stores `parentId = "r"` on node `c`; after `setRootNode(tree, "c")` the
source tree (first component: the tree as observable through the shared data
objects) has lost that `parentId`, contradicting the claim that the source
tree's stored `parentId`s are unmodified by every prune operation. -/
theorem claim7_code_bug_eval :
    (dataList srcTree).map (fun d => (d.id, d.parentId)) =
      [("r", none), ("c", some "r")] ∧
    (setRootNode srcTree "c").map
        (fun p => (dataList p.1).map (fun d => (d.id, d.parentId))) =
      some [("r", none), ("c", none)] := by
  exact ⟨rfl, rfl⟩

/-! ## Structural helper lemmas -/

theorem self_mem_subtrees (t : HNode) : t ∈ subtrees t := by
  cases t with
  | node d v cs =>
    simp only [subtrees]
    exact List.mem_cons_self _ _

theorem countNodes_pos (t : HNode) : 1 ≤ countNodes t := by
  cases t with
  | node d v cs => simp [countNodes]

theorem countList_pos (cs : List HNode) (h : cs ≠ []) : 1 ≤ countList cs := by
  cases cs with
  | nil => exact absurd rfl h
  | cons c cs =>
    calc 1 ≤ countNodes c := countNodes_pos c
      _ ≤ countNodes c + countList cs := Nat.le_add_right _ _
      _ = countList (c :: cs) := rfl

theorem mem_subtreesOf (s : HNode) (cs : List HNode) :
    s ∈ subtreesOf cs ↔ ∃ c ∈ cs, s ∈ subtrees c := by
  induction cs with
  | nil => simp [subtreesOf]
  | cons c cs ih =>
    simp only [subtreesOf, List.mem_append, ih, List.mem_cons]
    constructor
    · rintro (h | ⟨c', hc', hs⟩)
      · exact ⟨c, Or.inl rfl, h⟩
      · exact ⟨c', Or.inr hc', hs⟩
    · rintro ⟨c', (rfl | hc'), hs⟩
      · exact Or.inl hs
      · exact Or.inr ⟨c', hc', hs⟩

mutual
theorem subtrees_copy (t : HNode) :
    subtrees (copyNode t) = (subtrees t).map copyNode := by
  cases t with
  | node d v cs =>
    simp only [copyNode, subtrees, subtreesOf_copy, List.map_cons]
theorem subtreesOf_copy (cs : List HNode) :
    subtreesOf (copyList cs) = (subtreesOf cs).map copyNode := by
  cases cs with
  | nil => rfl
  | cons c cs =>
    simp only [copyList, subtreesOf, subtrees_copy, subtreesOf_copy,
      List.map_append]
end

theorem copyNode_data (t : HNode) : (copyNode t).data = t.data := by
  cases t with
  | node d v cs => rfl

theorem copyNode_children_ne_nil (t : HNode) :
    (copyNode t).children ≠ [] ↔ t.children ≠ [] := by
  cases t with
  | node d v cs =>
    cases cs with
    | nil => simp [copyNode, copyList, HNode.children]
    | cons c cs => simp [copyNode, copyList, HNode.children]

/-! ## Min-distance pruning lemmas (C9) -/

mutual
theorem ancAnnot_false (t : ℚ) (x : HNode) :
    ((ancAnnot t false x).filter (fun p => p.2)).map Prod.fst = [] := by
  cases x with
  | node d v cs =>
    simp only [ancAnnot, Bool.false_and, List.filter_cons]
    simpa using ancAnnotList_false t cs
theorem ancAnnotList_false (t : ℚ) (cs : List HNode) :
    ((ancAnnotList t false cs).filter (fun p => p.2)).map Prod.fst = [] := by
  cases cs with
  | nil => rfl
  | cons c cs =>
    simp only [ancAnnotList, List.filter_append, List.map_append,
      ancAnnot_false, ancAnnotList_false, List.append_nil]
end

mutual
theorem dataList_minDistStep (t : ℚ) (x : HNode) :
    dataList (minDistStep t x) =
      ((ancAnnot t true x).filter (fun p => p.2)).map Prod.fst := by
  cases x with
  | node d v cs =>
    by_cases h : distFalsyOrLt d.distance t = true
    · simp only [minDistStep, h, if_true, dataList, dataListOf, ancAnnot,
        Bool.true_and, h, Bool.not_true, Bool.and_false, List.filter_cons]
      simpa using (ancAnnotList_false t cs).symm
    · rw [Bool.not_eq_true] at h
      simp only [minDistStep, h, Bool.false_eq_true, if_false, dataList,
        ancAnnot, Bool.true_and, Bool.not_false, List.filter_cons,
        dataListOf_minDistList t cs]
      simp
theorem dataListOf_minDistList (t : ℚ) (cs : List HNode) :
    dataListOf (minDistList t cs) =
      ((ancAnnotList t true cs).filter (fun p => p.2)).map Prod.fst := by
  cases cs with
  | nil => rfl
  | cons c cs =>
    simp only [minDistList, dataListOf, ancAnnotList, List.filter_append,
      List.map_append, dataList_minDistStep t c, dataListOf_minDistList t cs]
end

mutual
theorem minDistStep_leaves (t : ℚ) (x : HNode) :
    ∀ s ∈ subtrees (minDistStep t x),
      distFalsyOrLt s.data.distance t = true → s.children = [] := by
  cases x with
  | node d v cs =>
    intro s hs hfail
    by_cases h : distFalsyOrLt d.distance t = true
    · simp only [minDistStep, h, if_true, subtrees, subtreesOf] at hs
      rcases List.mem_singleton.mp hs with rfl
      rfl
    · rw [Bool.not_eq_true] at h
      simp only [minDistStep, h, Bool.false_eq_true, if_false, subtrees,
        List.mem_cons] at hs
      rcases hs with rfl | hs
      · rw [show (HNode.node d v (minDistList t cs)).data = d from rfl] at hfail
        rw [hfail] at h
        cases h
      · rcases (mem_subtreesOf s (minDistList t cs)).mp hs with ⟨c', hc', hsc⟩
        exact minDistList_leaves t cs c' hc' s hsc hfail
theorem minDistList_leaves (t : ℚ) (cs : List HNode) :
    ∀ c' ∈ minDistList t cs, ∀ s ∈ subtrees c',
      distFalsyOrLt s.data.distance t = true → s.children = [] := by
  cases cs with
  | nil => intro c' hc'; cases hc'
  | cons c cs =>
    intro c' hc' s hs hfail
    simp only [minDistList, List.mem_cons] at hc'
    rcases hc' with rfl | hc'
    · exact minDistStep_leaves t c s hs hfail
    · exact minDistList_leaves t cs c' hc' s hs hfail
end

mutual
theorem countNodes_minDistStep_le (t : ℚ) (x : HNode) :
    countNodes (minDistStep t x) ≤ countNodes x := by
  cases x with
  | node d v cs =>
    by_cases h : distFalsyOrLt d.distance t = true
    · simp only [minDistStep, h, if_true, countNodes, countList]
      exact Nat.le_add_right _ _
    · rw [Bool.not_eq_true] at h
      simp only [minDistStep, h, Bool.false_eq_true, if_false, countNodes]
      exact Nat.add_le_add_left (countList_minDistList_le t cs) _
theorem countList_minDistList_le (t : ℚ) (cs : List HNode) :
    countList (minDistList t cs) ≤ countList cs := by
  cases cs with
  | nil => exact Nat.le_refl _
  | cons c cs =>
    simp only [minDistList, countList]
    exact Nat.add_le_add (countNodes_minDistStep_le t c)
      (countList_minDistList_le t cs)
end

mutual
theorem countNodes_minDistStep_lt (x : HNode)
    (h : ∃ s ∈ subtrees x, s.children ≠ [] ∧
      (s.data.distance = none ∨ s.data.distance = some 0)) :
    countNodes (minDistStep 0 x) < countNodes x := by
  cases x with
  | node d v cs =>
    have hcs : cs ≠ [] := by
      rcases h with ⟨s, hs, hne, _⟩
      simp only [subtrees, List.mem_cons] at hs
      rcases hs with rfl | hs
      · simpa [HNode.children] using hne
      · intro hnil
        subst hnil
        simp [subtreesOf] at hs
    by_cases hd : distFalsyOrLt d.distance 0 = true
    · simp only [minDistStep, hd, if_true, countNodes, countList]
      have := countList_pos cs hcs
      omega
    · rw [Bool.not_eq_true] at hd
      simp only [minDistStep, hd, Bool.false_eq_true, if_false, countNodes]
      have hdeep : ∃ c ∈ cs, ∃ s ∈ subtrees c, s.children ≠ [] ∧
          (s.data.distance = none ∨ s.data.distance = some 0) := by
        rcases h with ⟨s, hs, hne, hdist⟩
        simp only [subtrees, List.mem_cons] at hs
        rcases hs with rfl | hs
        · exfalso
          rcases hdist with hdist | hdist <;>
            · rw [show (HNode.node d v cs).data = d from rfl] at hdist
              rw [hdist] at hd
              simp [distFalsyOrLt] at hd
        · rcases (mem_subtreesOf s cs).mp hs with ⟨c, hc, hsc⟩
          exact ⟨c, hc, s, hsc, hne, hdist⟩
      have := countList_minDistList_lt cs hdeep
      omega
theorem countList_minDistList_lt (cs : List HNode)
    (h : ∃ c ∈ cs, ∃ s ∈ subtrees c, s.children ≠ [] ∧
      (s.data.distance = none ∨ s.data.distance = some 0)) :
    countList (minDistList 0 cs) < countList cs := by
  cases cs with
  | nil => simp at h
  | cons c cs =>
    rcases h with ⟨c', hc', hex⟩
    simp only [List.mem_cons] at hc'
    simp only [minDistList, countList]
    rcases hc' with rfl | hc'
    · have h1 := countNodes_minDistStep_lt c' hex
      have h2 := countList_minDistList_le 0 cs
      omega
    · have h1 := countNodes_minDistStep_le 0 c
      have h2 := countList_minDistList_lt cs ⟨c', hc', hex⟩
      omega
end

mutual
theorem ancAnnot_copy (t : ℚ) (ok : Bool) (x : HNode) :
    ancAnnot t ok (copyNode x) = ancAnnot t ok x := by
  cases x with
  | node d v cs => simp only [copyNode, ancAnnot, ancAnnotList_copy]
theorem ancAnnotList_copy (t : ℚ) (ok : Bool) (cs : List HNode) :
    ancAnnotList t ok (copyList cs) = ancAnnotList t ok cs := by
  cases cs with
  | nil => rfl
  | cons c cs =>
    simp only [copyList, ancAnnotList, ancAnnot_copy, ancAnnotList_copy]
end

/-- C9: min-distance pruning (i) keeps exactly the input nodes all of whose
proper ancestors pass the distance test — i.e. every node of the input except
the strict descendants of nodes with missing, zero or below-threshold
distance — in input preorder; (ii) every kept node that fails the test has
become a leaf; and (iii) with threshold 0 the prune is never the identity on
a tree containing an internal node with missing or zero distance: it strictly
shrinks the node count. -/
theorem claim9_min_distance (tree : HNode) (t : ℚ) :
    (dataList (pruneTreeByMinDistance tree t) =
      ((ancAnnot t true tree).filter (fun p => p.2)).map Prod.fst) ∧
    (∀ s ∈ subtrees (pruneTreeByMinDistance tree t),
      distFalsyOrLt s.data.distance t = true → s.children = []) ∧
    ((∃ s ∈ subtrees tree, s.children ≠ [] ∧
        (s.data.distance = none ∨ s.data.distance = some 0)) →
      countNodes (pruneTreeByMinDistance tree 0) < countNodes tree) := by
  refine ⟨?_, ?_, ?_⟩
  · rw [pruneTreeByMinDistance, dataList_minDistStep, ancAnnot_copy]
  · intro s hs hfail
    exact minDistStep_leaves t (copyNode tree) s hs hfail
  · intro ⟨s, hs, hne, hdist⟩
    rw [pruneTreeByMinDistance]
    have hex : ∃ s' ∈ subtrees (copyNode tree), s'.children ≠ [] ∧
        (s'.data.distance = none ∨ s'.data.distance = some 0) := by
      refine ⟨copyNode s, ?_, ?_, ?_⟩
      · rw [subtrees_copy]
        exact List.mem_map_of_mem copyNode hs
      · exact (copyNode_children_ne_nil s).mpr hne
      · rw [copyNode_data]
        exact hdist
    calc countNodes (minDistStep 0 (copyNode tree))
        < countNodes (copyNode tree) := countNodes_minDistStep_lt _ hex
      _ = countNodes tree := countNodes_copy tree

/-- C9 witness: on the scenario tree (root distance missing, two children)
pruning with threshold 0 strictly shrinks the tree — and concretely all that
survives is the root. -/
theorem claim9_witness :
    countNodes (pruneTreeByMinDistance scenarioTree 0) <
      countNodes scenarioTree ∧
    countNodes (pruneTreeByMinDistance scenarioTree 0) = 1 := by
  constructor
  · exact (claim9_min_distance scenarioTree 0).2.2
      ⟨scenarioTree, self_mem_subtrees scenarioTree,
        by simp [scenarioTree, HNode.children], Or.inl rfl⟩
  · rfl

/-! ## Association-list lemmas -/

theorem getA_isSome_iff_any {α : Type} (m : List (String × α)) (k : String) :
    (getA m k).isSome = true ↔ m.any (fun p => p.1 == k) = true := by
  induction m with
  | nil => simp [getA]
  | cons p rest ih =>
    by_cases h : p.1 == k
    · simp [getA, h]
    · simp only [getA, h, Bool.false_eq_true, if_false, List.any_cons,
        Bool.or_eq_true, ih]
      simp [h]

theorem getA_eq_none_of_not_mem {α : Type} (m : List (String × α)) (k : String)
    (h : m.all (fun p => p.1 != k) = true) : getA m k = none := by
  induction m with
  | nil => rfl
  | cons p rest ih =>
    simp only [List.all_cons, Bool.and_eq_true, bne_iff_ne] at h
    simp only [getA, beq_iff_eq, h.1, if_false]
    exact ih h.2

theorem getA_append {α : Type} (a b : List (String × α)) (k : String) :
    getA (a ++ b) k = match getA a k with | some v => some v | none => getA b k := by
  induction a with
  | nil => simp [getA]
  | cons p rest ih =>
    by_cases h : p.1 == k
    · simp [getA, h]
    · simp [getA, h, ih]

/-- Incrementing every entry with key `k0` rewrites the lookup at `k0` and
leaves every other lookup alone. -/
theorem getA_map_inc (m : List (String × Nat)) (k0 k : String) :
    getA (m.map (fun p => if p.1 == k0 then (p.1, p.2 + 1) else p)) k =
      if k0 == k then (getA m k).map (fun n => n + 1) else getA m k := by
  induction m with
  | nil => cases h : (k0 == k) <;> simp [getA, h]
  | cons p rest ih =>
    simp only [List.map_cons]
    by_cases hp0 : (p.1 == k0) = true
    · have hp0' : p.1 = k0 := by simpa using hp0
      subst hp0'
      by_cases hk : (p.1 == k) = true
      · simp only [if_pos hp0, getA, hk, if_pos, if_true, hk, ih]
        simp [hk]
      · simp only [if_pos hp0, getA, hk, Bool.false_eq_true, if_false, ih]
    · have hp0' : ¬ p.1 = k0 := by simpa using hp0
      rw [if_neg hp0]
      by_cases hpk : (p.1 == k) = true
      · have hpk' : p.1 = k := by simpa using hpk
        have hk : ¬ (k0 == k) = true := by
          simp only [beq_iff_eq]
          intro hc
          exact hp0' (hpk'.trans hc.symm)
        simp only [getA, hpk, if_pos, if_true, if_neg hk]
      · simp only [getA, hpk, Bool.false_eq_true, if_false, ih]

/-- Pointwise effect of one `bump`: the bumped key's count goes up by one,
all others are untouched. -/
theorem getDN_bump (m : List (String × Nat)) (k0 k : String) :
    getDN (bump m k0) k = getDN m k + (if k0 == k then 1 else 0) := by
  unfold bump
  by_cases hmem : m.any (fun p => p.1 == k0) = true
  · simp only [hmem, if_true, getDN, getA_map_inc]
    by_cases hk : k0 == k
    · have hk' : k0 = k := by simpa using hk
      subst hk'
      have hsome : (getA m k0).isSome = true :=
        (getA_isSome_iff_any m k0).mpr hmem
      rcases Option.isSome_iff_exists.mp hsome with ⟨v, hv⟩
      simp [hk, hv]
    · simp [hk]
  · rw [Bool.not_eq_true] at hmem
    simp only [hmem, Bool.false_eq_true, if_false, getDN, getA_append]
    by_cases hk : (k0 == k) = true
    · have hk' : k0 = k := by simpa using hk
      subst hk'
      have hnone : getA m k0 = none := by
        apply getA_eq_none_of_not_mem
        rw [List.any_eq_false] at hmem
        rw [List.all_eq_true]
        intro p hp
        simpa using hmem p hp
      simp [hnone, getA, hk]
    · have hunit : getA [(k0, 1)] k = none := by
        simp only [getA, hk, Bool.false_eq_true, if_false]
      rcases h : getA m k with _ | v <;> simp [h, hunit, hk]

/-- Folding `bump` over items counts, for each key, the items whose mapped
label is that key. -/
theorem getDN_foldl_bump (lm : List (String × Option String))
    (items : List CellData) (acc : List (String × Nat)) (k : String) :
    getDN (items.foldl (fun a c => bump a (labelKey lm c.unCell)) acc) k =
      getDN acc k +
        (items.filter (fun c => labelKey lm c.unCell == k)).length := by
  induction items generalizing acc with
  | nil => simp
  | cons c items ih =>
    simp only [List.foldl_cons, ih, getDN_bump, List.filter_cons]
    by_cases h : labelKey lm c.unCell == k
    · simp [h]
      omega
    · simp [h]

/-! ## C3 -/

/-- C3 counterexample: with the scenario label file (`1 ↦ red`, `2 ↦ blue`)
and a leaf holding barcodes `1` and `3`, the unmapped barcode `3` is NOT
skipped — it is tallied under the literal key `"undefined"` (the string
coercion of the failed lookup), which is not a label the file knows. -/
theorem claim3_counterexample :
    getA (leafLabelCount (buildLabelMap scenarioCsv) [⟨"1", []⟩, ⟨"3", []⟩])
        "undefined" = some 1 ∧
    (buildLabelMap scenarioCsv).all (fun p => p.2 != some "undefined") = true := by
  exact ⟨by decide, by decide⟩

/-- C3 amended: each leaf's per-label count tallies every item under the
label `labelKey` assigns to its barcode — the mapped label when the barcode is
known, the literal string `"undefined"` otherwise (so unmapped barcodes are
counted under `"undefined"` rather than skipped); on the scenario (label rows
`1,red` and `2,blue`, leaf items with barcodes `1` and `2`) the count is
`{red: 1, blue: 1}` as the claim states. -/
theorem claim3_amended :
    (∀ (lm : List (String × Option String)) (items : List CellData)
        (k : String),
      getDN (leafLabelCount lm items) k =
        (items.filter (fun c => labelKey lm c.unCell == k)).length) ∧
    leafLabelCount (buildLabelMap scenarioCsv) [⟨"1", []⟩, ⟨"2", []⟩] =
      [("red", 1), ("blue", 1)] := by
  constructor
  · intro lm items k
    rw [leafLabelCount, getDN_foldl_bump]
    simp [getDN, getA]
  · decide

/-! ## Sorting lemmas -/

theorem insertBy_perm {α : Type} (lt : α → α → Bool) (x : α) (l : List α) :
    List.Perm (insertBy lt x l) (x :: l) := by
  induction l with
  | nil => exact List.Perm.refl _
  | cons y ys ih =>
    by_cases h : lt x y = true
    · simp only [insertBy, h, if_true]
      exact List.Perm.refl _
    · simp only [insertBy, h, Bool.false_eq_true, if_false]
      exact (ih.cons y).trans (List.Perm.swap x y ys)

theorem foldl_insertBy_perm {α : Type} (lt : α → α → Bool) (l acc : List α) :
    List.Perm (l.foldl (fun a x => insertBy lt x a) acc) (acc ++ l) := by
  induction l generalizing acc with
  | nil => simp
  | cons x l ih =>
    refine (ih (insertBy lt x acc)).trans ?_
    exact ((insertBy_perm lt x acc).append_right l).trans List.perm_middle.symm

theorem jsSortBy_perm {α : Type} (lt : α → α → Bool) (l : List α) :
    List.Perm (jsSortBy lt l) l := by
  simpa [jsSortBy] using foldl_insertBy_perm lt l []

theorem mem_jsSortBy {α : Type} (lt : α → α → Bool) (x : α) (l : List α) :
    x ∈ jsSortBy lt l ↔ x ∈ l :=
  (jsSortBy_perm lt l).mem_iff

theorem length_jsSortBy {α : Type} (lt : α → α → Bool) (l : List α) :
    (jsSortBy lt l).length = l.length :=
  (jsSortBy_perm lt l).length_eq

/-! ## Preservation lemmas for the Tree Builder passes -/

theorem sortList_eq_map (cs : List HNode) : sortList cs = cs.map sortNode := by
  induction cs with
  | nil => rfl
  | cons c cs ih => simp only [sortList, List.map_cons, ih]

theorem sumList_eq_map (cs : List HNode) : sumList cs = cs.map sumNode := by
  induction cs with
  | nil => rfl
  | cons c cs ih => simp only [sumList, List.map_cons, ih]

theorem annotateLabelsList_eq_map (lm : List (String × Option String))
    (cs : List HNode) : annotateLabelsList lm cs = cs.map (annotateLabels lm) := by
  induction cs with
  | nil => rfl
  | cons c cs ih => simp only [annotateLabelsList, List.map_cons, ih]

theorem itemsOnlyListB_iff (cs : List HNode) :
    itemsOnlyListB cs = true ↔ ∀ c ∈ cs, itemsOnlyB c = true := by
  induction cs with
  | nil => simp [itemsOnlyListB]
  | cons c cs ih =>
    simp only [itemsOnlyListB, Bool.and_eq_true, ih, List.mem_cons]
    constructor
    · rintro ⟨h1, h2⟩ c' (rfl | hc')
      · exact h1
      · exact h2 c' hc'
    · intro h
      exact ⟨h c (Or.inl rfl), fun c' hc' => h c' (Or.inr hc')⟩

theorem itemsOnlyListB_jsSortBy (l : List HNode) :
    itemsOnlyListB (jsSortBy childLt l) = true ↔ itemsOnlyListB l = true := by
  rw [itemsOnlyListB_iff, itemsOnlyListB_iff]
  constructor
  · intro h c hc
    exact h c ((mem_jsSortBy childLt c l).mpr hc)
  · intro h c hc
    exact h c ((mem_jsSortBy childLt c l).mp hc)

theorem isEmpty_jsSortBy {α : Type} (lt : α → α → Bool) (l : List α) :
    (jsSortBy lt l).isEmpty = l.isEmpty := by
  cases hl : jsSortBy lt l with
  | nil =>
    cases l with
    | nil => rfl
    | cons a as =>
      have hlen := length_jsSortBy lt (a :: as)
      rw [hl] at hlen
      simp at hlen
  | cons b bs =>
    cases l with
    | nil =>
      have hlen := length_jsSortBy lt ([] : List α)
      rw [hl] at hlen
      simp at hlen
    | cons a as => rfl

mutual
theorem itemsOnlyB_sortNode (t : HNode) (h : itemsOnlyB t = true) :
    itemsOnlyB (sortNode t) = true := by
  cases t with
  | node d v cs =>
    simp only [itemsOnlyB, Bool.and_eq_true, Bool.or_eq_true] at h
    simp only [sortNode, itemsOnlyB, Bool.and_eq_true, Bool.or_eq_true]
    constructor
    · rcases h.1 with h1 | h1
      · left
        rw [isEmpty_jsSortBy childLt]
        cases cs with
        | nil => rfl
        | cons a b => simp [List.isEmpty] at h1
      · right
        exact h1
    · rw [itemsOnlyListB_jsSortBy]
      exact itemsOnlyListB_sortList cs h.2
theorem itemsOnlyListB_sortList (cs : List HNode)
    (h : itemsOnlyListB cs = true) : itemsOnlyListB (sortList cs) = true := by
  cases cs with
  | nil => rfl
  | cons c cs =>
    simp only [itemsOnlyListB, Bool.and_eq_true] at h
    simp only [sortList, itemsOnlyListB, Bool.and_eq_true]
    exact ⟨itemsOnlyB_sortNode c h.1, itemsOnlyListB_sortList cs h.2⟩
end

mutual
theorem itemsOnlyB_sumNode (t : HNode) (h : itemsOnlyB t = true) :
    itemsOnlyB (sumNode t) = true := by
  cases t with
  | node d v cs =>
    simp only [itemsOnlyB, Bool.and_eq_true, Bool.or_eq_true] at h
    simp only [sumNode, itemsOnlyB, Bool.and_eq_true, Bool.or_eq_true]
    constructor
    · rcases h.1 with h1 | h1
      · left
        cases cs with
        | nil => rfl
        | cons a b => simp [List.isEmpty] at h1
      · right
        exact h1
    · exact itemsOnlyListB_sumList cs h.2
theorem itemsOnlyListB_sumList (cs : List HNode)
    (h : itemsOnlyListB cs = true) : itemsOnlyListB (sumList cs) = true := by
  cases cs with
  | nil => rfl
  | cons c cs =>
    simp only [itemsOnlyListB, Bool.and_eq_true] at h
    simp only [sumList, itemsOnlyListB, Bool.and_eq_true]
    exact ⟨itemsOnlyB_sumNode c h.1, itemsOnlyListB_sumList cs h.2⟩
end

/-! ## Value correctness of the `sum` pass (C2) -/

theorem sumAccessor_eq_cast (d : NodeData) :
    sumAccessor d = (dataItemLen d : ℚ) := by
  rcases h : d.items with _ | its <;> simp [sumAccessor, dataItemLen, h]

theorem childValueSum_eq (cs' : List HNode)
    (h : ∀ c ∈ cs', c.value = some ((leafItemSum c : ℚ))) :
    childValueSum cs' = (leafItemSumList cs' : ℚ) := by
  induction cs' with
  | nil => simp [childValueSum, leafItemSumList]
  | cons c cs ih =>
    simp only [childValueSum, List.map_cons, List.sum_cons, leafItemSumList]
    rw [h c (List.mem_cons_self _ _)]
    simp only [Option.getD_some]
    have hrest : childValueSum cs = (leafItemSumList cs : ℚ) :=
      ih (fun c' hc' => h c' (List.mem_cons_of_mem _ hc'))
    show (leafItemSum c : ℚ) + childValueSum cs = _
    rw [hrest]
    push_cast
    ring

mutual
theorem sumNode_vc (t : HNode) (h : itemsOnlyB t = true) :
    ∀ s ∈ subtrees (sumNode t), s.value = some ((leafItemSum s : ℚ)) := by
  cases t with
  | node d v cs =>
    simp only [itemsOnlyB, Bool.and_eq_true, Bool.or_eq_true] at h
    have hann : sumNode (HNode.node d v cs) =
        HNode.node d (some (sumAccessor d + childValueSum (sumList cs)))
          (sumList cs) := rfl
    rw [hann]
    intro s hs
    simp only [subtrees, List.mem_cons] at hs
    rcases hs with rfl | hs
    · simp only [HNode.value]
      cases cs with
      | nil =>
        simp [leafItemSum, sumList, childValueSum, List.isEmpty,
          sumAccessor_eq_cast]
      | cons c rest =>
        have hno : d.items = none := by
          rcases h.1 with h1 | h1
          · simp [List.isEmpty] at h1
          · exact Option.isNone_iff_eq_none.mp h1
        have hacc : sumAccessor d = 0 := by simp [sumAccessor, hno]
        have hne : sumList (c :: rest) = sumNode c :: sumList rest := rfl
        have hval : ∀ c' ∈ sumList (c :: rest),
            c'.value = some ((leafItemSum c' : ℚ)) := by
          intro c' hc'
          exact sumList_vc (c :: rest) h.2 c'
            ((mem_subtreesOf c' _).mpr ⟨c', hc', self_mem_subtrees c'⟩)
        rw [hacc, childValueSum_eq _ hval]
        simp [leafItemSum, hne, List.isEmpty]
    · exact sumList_vc cs h.2 s hs
theorem sumList_vc (cs : List HNode) (h : itemsOnlyListB cs = true) :
    ∀ s ∈ subtreesOf (sumList cs), s.value = some ((leafItemSum s : ℚ)) := by
  cases cs with
  | nil => intro s hs; cases hs
  | cons c rest =>
    simp only [itemsOnlyListB, Bool.and_eq_true] at h
    intro s hs
    have : subtreesOf (sumList (c :: rest)) =
        subtrees (sumNode c) ++ subtreesOf (sumList rest) := rfl
    rw [this, List.mem_append] at hs
    rcases hs with hs | hs
    · exact sumNode_vc c h.1 s hs
    · exact sumList_vc rest h.2 s hs
end

/-! ## Label-pass structural preservation (C2) -/

theorem annotateList_isEmpty (lm : List (String × Option String))
    (cs : List HNode) : (annotateLabelsList lm cs).isEmpty = cs.isEmpty := by
  cases cs with
  | nil => rfl
  | cons c rest => rfl

mutual
theorem leafItemSum_annotate (lm : List (String × Option String)) (t : HNode) :
    leafItemSum (annotateLabels lm t) = leafItemSum t := by
  cases t with
  | node d v cs =>
    cases cs with
    | nil =>
      cases hd : d.items with
      | none => simp [annotateLabels, leafItemSum, annotateLabelsList,
          List.isEmpty, dataItemLen, hd]
      | some its => simp [annotateLabels, leafItemSum, annotateLabelsList,
          List.isEmpty, dataItemLen, hd]
    | cons c rest =>
      cases hd : d.items with
      | none =>
        simp only [annotateLabels, hd, leafItemSum, annotateLabelsList,
          List.isEmpty]
        exact leafItemSumList_annotate lm (c :: rest)
      | some its =>
        simp only [annotateLabels, hd, leafItemSum, annotateLabelsList,
          List.isEmpty]
        exact leafItemSumList_annotate lm (c :: rest)
theorem leafItemSumList_annotate (lm : List (String × Option String))
    (cs : List HNode) :
    leafItemSumList (annotateLabelsList lm cs) = leafItemSumList cs := by
  cases cs with
  | nil => rfl
  | cons c rest =>
    simp only [annotateLabelsList, leafItemSumList, leafItemSum_annotate,
      leafItemSumList_annotate]
end

theorem annotate_shape (lm : List (String × Option String)) (d : NodeData)
    (v : Option ℚ) (cs : List HNode) :
    ∃ d', annotateLabels lm (HNode.node d v cs) =
        HNode.node d' v (annotateLabelsList lm cs) ∧
      d'.items = d.items ∧ d'.labelCount =
        (match d.items with
         | some its => leafLabelCount lm its
         | none => (annotateLabelsList lm cs).foldl
             (fun acc c => merge acc c.data.labelCount) []) := by
  exact ⟨_, rfl, rfl, rfl⟩

mutual
theorem annotate_vc (lm : List (String × Option String)) (u : HNode)
    (h : ∀ s ∈ subtrees u, s.value = some ((leafItemSum s : ℚ))) :
    ∀ s ∈ subtrees (annotateLabels lm u), s.value = some ((leafItemSum s : ℚ)) := by
  cases u with
  | node d v cs =>
    obtain ⟨d', hann, hitems, hlc⟩ := annotate_shape lm d v cs
    intro s hs
    rw [hann] at hs
    simp only [subtrees, List.mem_cons] at hs
    rcases hs with rfl | hs
    · simp only [HNode.value]
      have hroot := h _ (self_mem_subtrees (HNode.node d v cs))
      simp only [HNode.value] at hroot
      have hpres := leafItemSum_annotate lm (HNode.node d v cs)
      rw [hann] at hpres
      rw [hpres]
      exact hroot
    · exact annotateList_vc lm cs
        (fun s' hs' => h s' (by
          simp only [subtrees, List.mem_cons]
          exact Or.inr hs')) s hs
theorem annotateList_vc (lm : List (String × Option String)) (cs : List HNode)
    (h : ∀ s ∈ subtreesOf cs, s.value = some ((leafItemSum s : ℚ))) :
    ∀ s ∈ subtreesOf (annotateLabelsList lm cs),
      s.value = some ((leafItemSum s : ℚ)) := by
  cases cs with
  | nil => intro s hs; cases hs
  | cons c rest =>
    intro s hs
    have heq : subtreesOf (annotateLabelsList lm (c :: rest)) =
        subtrees (annotateLabels lm c) ++
          subtreesOf (annotateLabelsList lm rest) := rfl
    rw [heq, List.mem_append] at hs
    rcases hs with hs | hs
    · exact annotate_vc lm c
        (fun s' hs' => h s' (by
          simp only [subtreesOf, List.mem_append]
          exact Or.inl hs')) s hs
    · exact annotateList_vc lm rest
        (fun s' hs' => h s' (by
          simp only [subtreesOf, List.mem_append]
          exact Or.inr hs')) s hs
end

/-! ## `merge` is the key-wise sum (C2) -/

theorem mem_dedupFirst (k : String) (l : List String) :
    ∀ seen, k ∈ dedupFirst seen l ↔ k ∈ l ∧ k ∉ seen := by
  induction l with
  | nil => intro seen; simp [dedupFirst]
  | cons x xs ih =>
    intro seen
    by_cases hx : x ∈ seen
    · have hxc : seen.contains x = true := by simpa using hx
      rw [show dedupFirst seen (x :: xs) = dedupFirst seen xs from by
        simp only [dedupFirst]
        rw [if_pos hxc]]
      rw [ih seen]
      simp only [List.mem_cons]
      constructor
      · rintro ⟨hk, hseen⟩
        exact ⟨Or.inr hk, hseen⟩
      · rintro ⟨hk | hk, hseen⟩
        · subst hk
          exact absurd hx hseen
        · exact ⟨hk, hseen⟩
    · have hxc : ¬ seen.contains x = true := by simpa using hx
      rw [show dedupFirst seen (x :: xs) = x :: dedupFirst (x :: seen) xs from by
        simp only [dedupFirst]
        rw [if_neg hxc]]
      simp only [List.mem_cons]
      rw [ih (x :: seen)]
      constructor
      · rintro (rfl | ⟨hk, hseen⟩)
        · exact ⟨Or.inl rfl, hx⟩
        · refine ⟨Or.inr hk, fun hc => hseen (List.mem_cons_of_mem x hc)⟩
      · rintro ⟨hk | hk, hseen⟩
        · exact Or.inl hk
        · by_cases hkx : k = x
          · exact Or.inl hkx
          · right
            refine ⟨hk, fun hc => ?_⟩
            simp only [List.mem_cons] at hc
            rcases hc with hc | hc
            · exact hkx hc
            · exact hseen hc

theorem getA_map_self {α : Type} (l : List String) (f : String → α) (k : String) :
    getA (l.map (fun x => (x, f x))) k = if k ∈ l then some (f k) else none := by
  induction l with
  | nil => simp [getA]
  | cons x xs ih =>
    by_cases hx : (x == k) = true
    · have hx' : x = k := by simpa using hx
      subst hx'
      simp [getA, ih]
    · have hx' : ¬ x = k := by simpa using hx
      simp only [List.map_cons, getA, hx, Bool.false_eq_true, if_false, ih,
        List.mem_cons]
      by_cases hk : k ∈ xs
      · simp [hk, Ne.symm hx']
      · simp [hk, Ne.symm hx']

theorem getA_eq_none_of_not_key {α : Type} (m : List (String × α)) (k : String)
    (h : k ∉ m.map Prod.fst) : getA m k = none := by
  induction m with
  | nil => rfl
  | cons p rest ih =>
    simp only [List.map_cons, List.mem_cons] at h
    push_neg at h
    have : ¬ (p.1 == k) = true := by
      simp only [beq_iff_eq]
      exact fun hc => h.1 hc.symm
    simp only [getA, this, Bool.false_eq_true, if_false]
    exact ih h.2

theorem getDN_merge (a b : List (String × Nat)) (k : String) :
    getDN (merge a b) k = getDN a k + getDN b k := by
  unfold merge
  rw [show getDN ((dedupFirst [] (a.map Prod.fst ++ b.map Prod.fst)).map
      (fun k => (k, getDN a k + getDN b k))) k =
    ((getA ((dedupFirst [] (a.map Prod.fst ++ b.map Prod.fst)).map
      (fun k => (k, getDN a k + getDN b k))) k).getD 0) from rfl]
  rw [getA_map_self]
  by_cases hk : k ∈ dedupFirst [] (a.map Prod.fst ++ b.map Prod.fst)
  · simp [hk]
  · have hk' : k ∉ a.map Prod.fst ++ b.map Prod.fst := by
      intro hc
      exact hk ((mem_dedupFirst k _ []).mpr ⟨hc, by simp⟩)
    rw [List.mem_append] at hk'
    push_neg at hk'
    have ha := getA_eq_none_of_not_key a k hk'.1
    have hb := getA_eq_none_of_not_key b k hk'.2
    simp [hk, getDN, ha, hb]

theorem getA_merge_isSome (a b : List (String × Nat)) (k : String) :
    (getA (merge a b) k).isSome = true ↔
      k ∈ a.map Prod.fst ∨ k ∈ b.map Prod.fst := by
  unfold merge
  rw [getA_map_self]
  by_cases hk : k ∈ dedupFirst [] (a.map Prod.fst ++ b.map Prod.fst)
  · have hmem := (mem_dedupFirst k _ []).mp hk
    have hor := List.mem_append.mp hmem.1
    rw [if_pos hk]
    exact ⟨fun _ => hor, fun _ => rfl⟩
  · have hk' : ¬ (k ∈ a.map Prod.fst ∨ k ∈ b.map Prod.fst) := by
      intro hc
      exact hk ((mem_dedupFirst k _ []).mpr ⟨List.mem_append.mpr hc, by simp⟩)
    rw [if_neg hk]
    exact iff_of_false (by simp) hk'

theorem key_mem_iff_isSome {α : Type} (m : List (String × α)) (k : String) :
    k ∈ m.map Prod.fst ↔ (getA m k).isSome = true := by
  induction m with
  | nil => simp [getA]
  | cons p rest ih =>
    by_cases hp : (p.1 == k) = true
    · have hp' : p.1 = k := by simpa using hp
      simp [getA, hp, hp']
    · have hp' : ¬ p.1 = k := by simpa using hp
      simp only [List.map_cons, List.mem_cons, getA, hp, Bool.false_eq_true,
        if_false, ih]
      constructor
      · rintro (hk | hk)
        · exact absurd hk.symm hp'
        · exact hk
      · exact Or.inr

theorem getDN_foldl_merge (cs' : List HNode) (acc : List (String × Nat))
    (k : String) :
    getDN (cs'.foldl (fun acc c => merge acc c.data.labelCount) acc) k =
      getDN acc k + (cs'.map (fun c => getDN c.data.labelCount k)).sum := by
  induction cs' generalizing acc with
  | nil => simp
  | cons c rest ih =>
    simp only [List.foldl_cons, ih, getDN_merge, List.map_cons, List.sum_cons]
    omega

theorem isSome_foldl_merge (cs' : List HNode) (acc : List (String × Nat))
    (k : String) :
    (getA (cs'.foldl (fun acc c => merge acc c.data.labelCount) acc) k).isSome
        = true ↔
      (getA acc k).isSome = true ∨
        ∃ c ∈ cs', (getA c.data.labelCount k).isSome = true := by
  induction cs' generalizing acc with
  | nil => simp
  | cons c rest ih =>
    simp only [List.foldl_cons, ih, getA_merge_isSome, key_mem_iff_isSome,
      List.mem_cons]
    constructor
    · rintro ((h | h) | h)
      · exact Or.inl h
      · exact Or.inr ⟨c, Or.inl rfl, h⟩
      · rcases h with ⟨c', hc', h⟩
        exact Or.inr ⟨c', Or.inr hc', h⟩
    · rintro (h | ⟨c', (rfl | hc'), h⟩)
      · exact Or.inl (Or.inl h)
      · exact Or.inl (Or.inr h)
      · exact Or.inr ⟨c', hc', h⟩

/-! ## Label aggregation correctness (C2) -/

mutual
theorem annotate_lc (lm : List (String × Option String)) (u : HNode)
    (h : itemsOnlyB u = true) :
    ∀ s ∈ subtrees (annotateLabels lm u), s.children ≠ [] →
      (∀ k, getDN s.data.labelCount k =
        (s.children.map (fun c => getDN c.data.labelCount k)).sum) ∧
      (∀ k, (getA s.data.labelCount k).isSome = true →
        ∃ c ∈ s.children, (getA c.data.labelCount k).isSome = true) := by
  cases u with
  | node d v cs =>
    simp only [itemsOnlyB, Bool.and_eq_true, Bool.or_eq_true] at h
    obtain ⟨d', hann, hitems, hlc⟩ := annotate_shape lm d v cs
    intro s hs hchild
    rw [hann] at hs
    simp only [subtrees, List.mem_cons] at hs
    rcases hs with rfl | hs
    · simp only [HNode.children] at hchild
      have hcs : cs ≠ [] := by
        intro hnil
        subst hnil
        exact hchild rfl
      have hno : d.items = none := by
        rcases h.1 with h1 | h1
        · cases cs with
          | nil => exact absurd rfl hcs
          | cons a b => simp [List.isEmpty] at h1
        · exact Option.isNone_iff_eq_none.mp h1
      have hlc' : d'.labelCount = (annotateLabelsList lm cs).foldl
          (fun acc c => merge acc c.data.labelCount) [] := by
        rw [hlc, hno]
      constructor
      · intro k
        show getDN d'.labelCount k = ((annotateLabelsList lm cs).map
          (fun c => getDN c.data.labelCount k)).sum
        rw [hlc', getDN_foldl_merge]
        have h0 : getDN ([] : List (String × Nat)) k = 0 := rfl
        omega
      · intro k hk
        replace hk : (getA d'.labelCount k).isSome = true := hk
        show ∃ c ∈ annotateLabelsList lm cs,
          (getA c.data.labelCount k).isSome = true
        rw [hlc'] at hk
        rcases (isSome_foldl_merge _ [] k).mp hk with habs | hex
        · simp [getA] at habs
        · exact hex
    · exact annotateList_lc lm cs h.2 s hs hchild
theorem annotateList_lc (lm : List (String × Option String)) (cs : List HNode)
    (h : itemsOnlyListB cs = true) :
    ∀ s ∈ subtreesOf (annotateLabelsList lm cs), s.children ≠ [] →
      (∀ k, getDN s.data.labelCount k =
        (s.children.map (fun c => getDN c.data.labelCount k)).sum) ∧
      (∀ k, (getA s.data.labelCount k).isSome = true →
        ∃ c ∈ s.children, (getA c.data.labelCount k).isSome = true) := by
  cases cs with
  | nil => intro s hs; cases hs
  | cons c rest =>
    simp only [itemsOnlyListB, Bool.and_eq_true] at h
    intro s hs
    have heq : subtreesOf (annotateLabelsList lm (c :: rest)) =
        subtrees (annotateLabels lm c) ++
          subtreesOf (annotateLabelsList lm rest) := rfl
    rw [heq, List.mem_append] at hs
    rcases hs with hs | hs
    · exact annotate_lc lm c h.1 s hs
    · exact annotateList_lc lm rest h.2 s hs
end

/-! ## C2 -/

/-- C2: on a tree satisfying the data-model invariant that only childless
nodes carry items, after the Tree Builder's passes (`sort` then `sum`, as in
`buildTree`) followed by the `getData` label pass, (a) every node's `value` is
the total `items.length` over its leaf descendants (internal nodes
contributing 0 of their own), and (b) every internal node's per-label count
map is the key-wise sum of its children's maps: each label's count is the sum
of the children's counts (a key missing from a child counting 0), and every
key of the parent map comes from some child. -/
theorem claim2_aggregation (t : HNode) (lm : List (String × Option String))
    (h : itemsOnlyB t = true) :
    (∀ s ∈ subtrees (annotateLabels lm (sumNode (sortNode t))),
      s.value = some ((leafItemSum s : ℚ))) ∧
    (∀ s ∈ subtrees (annotateLabels lm (sumNode (sortNode t))),
      s.children ≠ [] →
        (∀ k, getDN s.data.labelCount k =
          (s.children.map (fun c => getDN c.data.labelCount k)).sum) ∧
        (∀ k, (getA s.data.labelCount k).isSome = true →
          ∃ c ∈ s.children, (getA c.data.labelCount k).isSome = true)) := by
  have h1 := itemsOnlyB_sortNode t h
  have h2 := itemsOnlyB_sumNode _ h1
  exact ⟨annotate_vc lm _ (sumNode_vc _ h1), annotate_lc lm _ h2⟩

/-- C2 witness: the aggregation theorem applied to a concrete two-leaf tree
(leaves with 1 and 2 items), whose root value computes to 3. -/
theorem claim2_witness :
    itemsOnlyB witnessTree = true ∧
    (annotateLabels (buildLabelMap scenarioCsv)
      (sumNode (sortNode witnessTree))).value = some 3 := by
  constructor
  · decide
  · have h := claim2_aggregation witnessTree (buildLabelMap scenarioCsv)
      (by decide)
    have h1 := h.1 _ (self_mem_subtrees _)
    rw [h1]
    decide

/-! ## Single-feature annotator lemmas (C10) -/

theorem updateFCSList_some_length (feature : String) (cs : List HNode)
    (cs' : List HNode)
    (h : updateFeatureCountsSingleList feature cs = some cs') :
    cs'.length = cs.length := by
  induction cs generalizing cs' with
  | nil =>
    simp only [updateFeatureCountsSingleList, Option.some.injEq] at h
    subst h
    rfl
  | cons c rest ih =>
    simp only [updateFeatureCountsSingleList] at h
    rcases hc : updateFeatureCountsSingle feature c with _ | c'
    · rw [hc] at h; cases h
    · rcases hrest : updateFeatureCountsSingleList feature rest with _ | rest'
      · rw [hc, hrest] at h; cases h
      · rw [hc, hrest] at h
        simp only [Option.some.injEq] at h
        subst h
        simp [ih rest' hrest]

theorem updateFCSList_mem_image (feature : String) (cs cs' : List HNode)
    (h : updateFeatureCountsSingleList feature cs = some cs') :
    ∀ c' ∈ cs', ∃ c ∈ cs, updateFeatureCountsSingle feature c = some c' := by
  induction cs generalizing cs' with
  | nil =>
    simp only [updateFeatureCountsSingleList, Option.some.injEq] at h
    subst h
    intro c' hc'
    cases hc'
  | cons c rest ih =>
    simp only [updateFeatureCountsSingleList] at h
    rcases hc : updateFeatureCountsSingle feature c with _ | c₀
    · rw [hc] at h; cases h
    · rcases hrest : updateFeatureCountsSingleList feature rest with _ | rest'
      · rw [hc, hrest] at h; cases h
      · rw [hc, hrest] at h
        simp only [Option.some.injEq] at h
        subst h
        intro c' hc'
        simp only [List.mem_cons] at hc'
        rcases hc' with rfl | hc'
        · exact ⟨c, List.mem_cons_self _ _, hc⟩
        · rcases ih rest' hrest c' hc' with ⟨c₁, hc₁, hup⟩
          exact ⟨c₁, List.mem_cons_of_mem _ hc₁, hup⟩

/-- Whatever branch succeeds, the updated node's `featureCount` is the
singleton record at the given feature. -/
theorem updateFCS_featureKey (feature : String) (t u : HNode)
    (h : updateFeatureCountsSingle feature t = some u) :
    (getA u.data.featureCount feature).isSome = true := by
  cases t with
  | node d v cs =>
    rcases hl : updateFeatureCountsSingleList feature cs with _ | cs'
    · rw [show updateFeatureCountsSingle feature (.node d v cs) = none from by
        simp [updateFeatureCountsSingle, hl]] at h
      cases h
    · rcases hd : d.items with _ | its
      · rcases cs' with _ | ⟨c0, cs''⟩
        · rw [show updateFeatureCountsSingle feature (.node d v cs) = none
              from by simp [updateFeatureCountsSingle, hl, hd]] at h
          cases h
        · rcases cs'' with _ | ⟨c1, rest₂⟩
          · rw [show updateFeatureCountsSingle feature (.node d v cs) = none
                from by simp [updateFeatureCountsSingle, hl, hd]] at h
            cases h
          · rcases hs0 : getA c0.data.featureCount feature with _ | s0
            · rw [show updateFeatureCountsSingle feature (.node d v cs) = none
                  from by simp [updateFeatureCountsSingle, hl, hd, hs0]] at h
              cases h
            · rcases hs1 : getA c1.data.featureCount feature with _ | s1
              · rw [show updateFeatureCountsSingle feature (.node d v cs) =
                    none from by
                  simp [updateFeatureCountsSingle, hl, hd, hs0, hs1]] at h
                cases h
              · rw [show updateFeatureCountsSingle feature (.node d v cs) =
                    some (.node { d with featureCount :=
                      [(feature,
                        ⟨jsDiv (jsAdd s0.quantity s1.quantity)
                          (some ((countNodes (.node d v cs) : ℚ) - 1)),
                        feature⟩)] } v (c0 :: c1 :: rest₂)) from by
                  simp [updateFeatureCountsSingle, hl, hd, hs0, hs1]] at h
                simp only [Option.some.injEq] at h
                subst h
                simp [HNode.data, getA]
      · rw [show updateFeatureCountsSingle feature (.node d v cs) =
            some (.node { d with featureCount :=
              [(feature, ⟨jsDiv (some (itemFeatureSum feature its)) v,
                feature⟩)] } v cs') from by
          simp [updateFeatureCountsSingle, hl, hd]] at h
        simp only [Option.some.injEq] at h
        subst h
        simp [HNode.data, getA]

mutual
theorem updateFCS_defined (feature : String) (t : HNode) :
    (updateFeatureCountsSingle feature t).isSome = true ↔
      ∀ s ∈ subtrees t, s.data.items ≠ none ∨ 2 ≤ s.children.length := by
  cases t with
  | node d v cs =>
    have hlist := updateFCSList_defined feature cs
    rcases hl : updateFeatureCountsSingleList feature cs with _ | cs'
    · rw [hl] at hlist
      rw [show updateFeatureCountsSingle feature (.node d v cs) = none from by
        simp [updateFeatureCountsSingle, hl]]
      refine iff_of_false (by simp) ?_
      intro hall
      have : (none : Option (List HNode)).isSome = true :=
        hlist.mpr (fun s hs => hall s (by
          simp only [subtrees, List.mem_cons]
          exact Or.inr hs))
      simp at this
    · rw [hl] at hlist
      have htail : ∀ s ∈ subtreesOf cs,
          s.data.items ≠ none ∨ 2 ≤ s.children.length :=
        hlist.mp (by simp)
      rcases hd : d.items with _ | its
      · rcases cs' with _ | ⟨c0, cs''⟩
        · have hcs : cs = [] := by
            have := updateFCSList_some_length feature cs [] hl
            simpa using List.length_eq_zero.mp this.symm
          subst hcs
          rw [show updateFeatureCountsSingle feature (.node d v []) = none
              from by simp [updateFeatureCountsSingle, hl, hd]]
          refine iff_of_false (by simp) ?_
          intro hall
          rcases hall _ (self_mem_subtrees (HNode.node d v [])) with hit | hlen
          · exact hit hd
          · simp [HNode.children] at hlen
        · rcases cs'' with _ | ⟨c1, rest₂⟩
          · have hcs : cs.length = 1 := by
              have := updateFCSList_some_length feature cs [c0] hl
              simpa using this.symm
            rw [show updateFeatureCountsSingle feature (.node d v cs) = none
                from by simp [updateFeatureCountsSingle, hl, hd]]
            refine iff_of_false (by simp) ?_
            intro hall
            rcases hall _ (self_mem_subtrees (HNode.node d v cs)) with hit | hlen
            · exact hit hd
            · simp only [HNode.children] at hlen
              omega
          · obtain ⟨x0, -, hx0⟩ := updateFCSList_mem_image feature cs _ hl c0
              (List.mem_cons_self _ _)
            obtain ⟨x1, -, hx1⟩ := updateFCSList_mem_image feature cs _ hl c1
              (List.mem_cons_of_mem _ (List.mem_cons_self _ _))
            have hk0 := updateFCS_featureKey feature x0 c0 hx0
            have hk1 := updateFCS_featureKey feature x1 c1 hx1
            rcases hs0 : getA c0.data.featureCount feature with _ | s0
            · rw [hs0] at hk0; simp at hk0
            rcases hs1 : getA c1.data.featureCount feature with _ | s1
            · rw [hs1] at hk1; simp at hk1
            rw [show updateFeatureCountsSingle feature (.node d v cs) =
                some (.node { d with featureCount :=
                  [(feature,
                    ⟨jsDiv (jsAdd s0.quantity s1.quantity)
                      (some ((countNodes (.node d v cs) : ℚ) - 1)),
                    feature⟩)] } v (c0 :: c1 :: rest₂)) from by
              simp [updateFeatureCountsSingle, hl, hd, hs0, hs1]]
            refine iff_of_true (by simp) ?_
            intro s hs
            simp only [subtrees, List.mem_cons] at hs
            rcases hs with rfl | hs
            · right
              have := updateFCSList_some_length feature cs _ hl
              simp only [HNode.children, List.length_cons] at this ⊢
              omega
            · exact htail s hs
      · rw [show updateFeatureCountsSingle feature (.node d v cs) =
            some (.node { d with featureCount :=
              [(feature, ⟨jsDiv (some (itemFeatureSum feature its)) v,
                feature⟩)] } v cs') from by
          simp [updateFeatureCountsSingle, hl, hd]]
        refine iff_of_true (by simp) ?_
        intro s hs
        simp only [subtrees, List.mem_cons] at hs
        rcases hs with rfl | hs
        · left
          simp [HNode.data, hd]
        · exact htail s hs
theorem updateFCSList_defined (feature : String) (cs : List HNode) :
    (updateFeatureCountsSingleList feature cs).isSome = true ↔
      ∀ s ∈ subtreesOf cs, s.data.items ≠ none ∨ 2 ≤ s.children.length := by
  cases cs with
  | nil => simp [updateFeatureCountsSingleList, subtreesOf]
  | cons c rest =>
    have h1 := updateFCS_defined feature c
    have h2 := updateFCSList_defined feature rest
    have hmem : ∀ s, s ∈ subtreesOf (c :: rest) ↔
        s ∈ subtrees c ∨ s ∈ subtreesOf rest := by
      intro s
      rw [show subtreesOf (c :: rest) = subtrees c ++ subtreesOf rest from rfl,
        List.mem_append]
    rcases hc : updateFeatureCountsSingle feature c with _ | c'
    · rw [hc] at h1
      rw [show updateFeatureCountsSingleList feature (c :: rest) = none from by
        simp [updateFeatureCountsSingleList, hc]]
      refine iff_of_false (by simp) ?_
      intro hall
      have : (none : Option HNode).isSome = true :=
        h1.mpr (fun s hs => hall s ((hmem s).mpr (Or.inl hs)))
      simp at this
    · rcases hrest : updateFeatureCountsSingleList feature rest with _ | rest'
      · rw [hrest] at h2
        rw [show updateFeatureCountsSingleList feature (c :: rest) = none
            from by simp [updateFeatureCountsSingleList, hc, hrest]]
        refine iff_of_false (by simp) ?_
        intro hall
        have : (none : Option (List HNode)).isSome = true :=
          h2.mpr (fun s hs => hall s ((hmem s).mpr (Or.inr hs)))
        simp at this
      · rw [hc] at h1
        rw [hrest] at h2
        rw [show updateFeatureCountsSingleList feature (c :: rest) =
            some (c' :: rest') from by
          simp [updateFeatureCountsSingleList, hc, hrest]]
        refine iff_of_true (by simp) ?_
        intro s hs
        rcases (hmem s).mp hs with hs | hs
        · exact h1.mp (by simp) s hs
        · exact h2.mp (by simp) s hs
end

theorem updateFCSList_cons_some (feature : String) (c : HNode)
    (cs : List HNode) (x : HNode) (xs : List HNode)
    (h : updateFeatureCountsSingleList feature (c :: cs) = some (x :: xs)) :
    updateFeatureCountsSingle feature c = some x ∧
      updateFeatureCountsSingleList feature cs = some xs := by
  simp only [updateFeatureCountsSingleList] at h
  rcases hc : updateFeatureCountsSingle feature c with _ | c'
  · rw [hc] at h; cases h
  · rcases hr : updateFeatureCountsSingleList feature cs with _ | cs''
    · rw [hc, hr] at h; cases h
    · rw [hc, hr] at h
      simp only [Option.some.injEq, List.cons.injEq] at h
      obtain ⟨rfl, rfl⟩ := h
      exact ⟨rfl, rfl⟩

/-- Inversion of the internal-node branch of the single-feature annotator: a
successful run on an itemless node read exactly the first and second updated
children and the subtree node count. -/
theorem updateFCS_internal_inv (feature : String) (d : NodeData)
    (v : Option ℚ) (cs : List HNode) (u : HNode) (hno : d.items = none)
    (h : updateFeatureCountsSingle feature (.node d v cs) = some u) :
    ∃ c0' c1' rest₂ s0 s1,
      updateFeatureCountsSingleList feature cs = some (c0' :: c1' :: rest₂) ∧
      getA c0'.data.featureCount feature = some s0 ∧
      getA c1'.data.featureCount feature = some s1 ∧
      u = .node { d with featureCount :=
          [(feature, ⟨jsDiv (jsAdd s0.quantity s1.quantity)
            (some ((countNodes (.node d v cs) : ℚ) - 1)), feature⟩)] } v
        (c0' :: c1' :: rest₂) := by
  rcases hl : updateFeatureCountsSingleList feature cs with _ | cs'
  · rw [show updateFeatureCountsSingle feature (.node d v cs) = none from by
      simp [updateFeatureCountsSingle, hl]] at h
    cases h
  · rcases cs' with _ | ⟨c0', cs''⟩
    · rw [show updateFeatureCountsSingle feature (.node d v cs) = none from by
        simp [updateFeatureCountsSingle, hl, hno]] at h
      cases h
    · rcases cs'' with _ | ⟨c1', rest₂⟩
      · rw [show updateFeatureCountsSingle feature (.node d v cs) = none
            from by simp [updateFeatureCountsSingle, hl, hno]] at h
        cases h
      · rcases hs0 : getA c0'.data.featureCount feature with _ | s0
        · rw [show updateFeatureCountsSingle feature (.node d v cs) = none
              from by simp [updateFeatureCountsSingle, hl, hno, hs0]] at h
          cases h
        · rcases hs1 : getA c1'.data.featureCount feature with _ | s1
          · rw [show updateFeatureCountsSingle feature (.node d v cs) = none
                from by simp [updateFeatureCountsSingle, hl, hno, hs0, hs1]]
              at h
            cases h
          · rw [show updateFeatureCountsSingle feature (.node d v cs) =
                some (.node { d with featureCount :=
                  [(feature, ⟨jsDiv (jsAdd s0.quantity s1.quantity)
                    (some ((countNodes (.node d v cs) : ℚ) - 1)),
                  feature⟩)] } v (c0' :: c1' :: rest₂)) from by
              simp [updateFeatureCountsSingle, hl, hno, hs0, hs1]] at h
            exact ⟨c0', c1', rest₂, s0, s1, rfl, hs0, hs1,
              (Option.some.inj h).symm⟩

/-! ## C10 -/

/-- C10: the single-feature average annotator is defined exactly on trees in
which every node either carries items or has at least two children — an
internal (itemless) node with fewer than two children makes the whole pass
throw (`none`), via the `children![1]` access.  Moreover, on an internal node
the computed statistic reads only the first two children's quantities and the
subtree node count: two sibling lists agreeing on the first two children and
on total node count (but with arbitrarily different later-children
quantities) yield the same per-feature statistic at the parent. -/
theorem claim10_single_feature (feature : String) :
    (∀ t : HNode, (updateFeatureCountsSingle feature t).isSome = true ↔
      ∀ s ∈ subtrees t, s.data.items ≠ none ∨ 2 ≤ s.children.length) ∧
    (∀ (d : NodeData) (v : Option ℚ) (c0 c1 : HNode)
        (rest rest' : List HNode) (u u' : HNode), d.items = none →
      countList rest = countList rest' →
      updateFeatureCountsSingle feature (.node d v (c0 :: c1 :: rest)) =
        some u →
      updateFeatureCountsSingle feature (.node d v (c0 :: c1 :: rest')) =
        some u' →
      getA u.data.featureCount feature = getA u'.data.featureCount feature)
    := by
  constructor
  · exact updateFCS_defined feature
  · intro d v c0 c1 rest rest' u u' hno hcount hu hu'
    obtain ⟨a0, a1, arest, s0, s1, hlA, hsA0, hsA1, rfl⟩ :=
      updateFCS_internal_inv feature d v _ u hno hu
    obtain ⟨b0, b1, brest, t0, t1, hlB, hsB0, hsB1, rfl⟩ :=
      updateFCS_internal_inv feature d v _ u' hno hu'
    obtain ⟨hA0, hArest⟩ := updateFCSList_cons_some feature c0 _ _ _ hlA
    obtain ⟨hA1, -⟩ := updateFCSList_cons_some feature c1 _ _ _ hArest
    obtain ⟨hB0, hBrest⟩ := updateFCSList_cons_some feature c0 _ _ _ hlB
    obtain ⟨hB1, -⟩ := updateFCSList_cons_some feature c1 _ _ _ hBrest
    have e0 : a0 = b0 := Option.some.inj (hA0.symm.trans hB0)
    have e1 : a1 = b1 := Option.some.inj (hA1.symm.trans hB1)
    subst e0
    subst e1
    have es0 : s0 = t0 := Option.some.inj (hsA0.symm.trans hsB0)
    have es1 : s1 = t1 := Option.some.inj (hsA1.symm.trans hsB1)
    subst es0
    subst es1
    have hcnt : countNodes (HNode.node d v (c0 :: c1 :: rest)) =
        countNodes (HNode.node d v (c0 :: c1 :: rest')) := by
      simp [countNodes, countList, hcount]
    simp only [HNode.data]
    rw [hcnt]

/-- C10 witness: the annotator throws on the concrete tree whose internal
node has a single child, succeeds on the three-leaf trees, and the third
leaf's feature value (100 vs 0) does not change the root statistic. -/
theorem claim10_witness :
    (updateFeatureCountsSingle "F" oneChildTree).isSome = false ∧
    (∃ u u', updateFeatureCountsSingle "F" threeChildTreeA = some u ∧
      updateFeatureCountsSingle "F" threeChildTreeB = some u' ∧
      getA u.data.featureCount "F" = getA u'.data.featureCount "F") := by
  constructor
  · have hiff := (claim10_single_feature "F").1 oneChildTree
    have hnot : ¬ ∀ s ∈ subtrees oneChildTree,
        s.data.items ≠ none ∨ 2 ≤ s.children.length := by decide
    cases hb : (updateFeatureCountsSingle "F" oneChildTree).isSome with
    | false => rfl
    | true => exact absurd (hiff.mp hb) hnot
  · have hA : (updateFeatureCountsSingle "F" threeChildTreeA).isSome = true :=
      ((claim10_single_feature "F").1 threeChildTreeA).mpr (by decide)
    have hB : (updateFeatureCountsSingle "F" threeChildTreeB).isSome = true :=
      ((claim10_single_feature "F").1 threeChildTreeB).mpr (by decide)
    obtain ⟨u, hu⟩ := Option.isSome_iff_exists.mp hA
    obtain ⟨u', hu'⟩ := Option.isSome_iff_exists.mp hB
    refine ⟨u, u', hu, hu', ?_⟩
    exact (claim10_single_feature "F").2 _ _ _ _ _ _ u u' rfl (by decide)
      hu hu'

/-! ## Order and stability of the engine sort (C8) -/

theorem insertBy_pairwise {α : Type} (lt : α → α → Bool)
    (hasym : ∀ a b, lt a b = true → lt b a = false)
    (htrans : ∀ a b c, lt a b = true → lt c b = false → lt a c = true)
    (x : α) (l : List α) (h : l.Pairwise (fun a b => lt b a = false)) :
    (insertBy lt x l).Pairwise (fun a b => lt b a = false) := by
  induction l with
  | nil => simp [insertBy]
  | cons y ys ih =>
    rcases List.pairwise_cons.mp h with ⟨hy, hys⟩
    by_cases hlt : lt x y = true
    · simp only [insertBy, hlt, if_true]
      refine List.pairwise_cons.mpr ⟨?_, h⟩
      intro z hz
      simp only [List.mem_cons] at hz
      rcases hz with rfl | hz
      · exact hasym x z hlt
      · exact hasym x z (htrans x y z hlt (hy z hz))
    · rw [Bool.not_eq_true] at hlt
      simp only [insertBy, hlt, Bool.false_eq_true, if_false]
      refine List.pairwise_cons.mpr ⟨?_, ih hys⟩
      intro z hz
      have hz' := (insertBy_perm lt x ys).mem_iff.mp hz
      simp only [List.mem_cons] at hz'
      rcases hz' with rfl | hz'
      · exact hlt
      · exact hy z hz'

theorem foldl_insertBy_pairwise {α : Type} (lt : α → α → Bool)
    (hasym : ∀ a b, lt a b = true → lt b a = false)
    (htrans : ∀ a b c, lt a b = true → lt c b = false → lt a c = true)
    (l acc : List α) (h : acc.Pairwise (fun a b => lt b a = false)) :
    (l.foldl (fun a x => insertBy lt x a) acc).Pairwise
      (fun a b => lt b a = false) := by
  induction l generalizing acc with
  | nil => exact h
  | cons x l ih => exact ih _ (insertBy_pairwise lt hasym htrans x acc h)

theorem jsSortBy_pairwise {α : Type} (lt : α → α → Bool)
    (hasym : ∀ a b, lt a b = true → lt b a = false)
    (htrans : ∀ a b c, lt a b = true → lt c b = false → lt a c = true)
    (l : List α) :
    (jsSortBy lt l).Pairwise (fun a b => lt b a = false) :=
  foldl_insertBy_pairwise lt hasym htrans l [] (by simp)

theorem childLt_asym (a b : HNode) : childLt a b = true → childLt b a = false := by
  simp only [childLt, decide_eq_true_eq, decide_eq_false_iff_not]
  omega

theorem childLt_trans (a b c : HNode) :
    childLt a b = true → childLt c b = false → childLt a c = true := by
  simp only [childLt, decide_eq_true_eq, decide_eq_false_iff_not]
  omega

/-- The sorted sibling list is non-increasing in own-item count. -/
theorem jsSortBy_childLt_sorted (l : List HNode) :
    (jsSortBy childLt l).Pairwise
      (fun a b => ownItemCount b ≤ ownItemCount a) := by
  refine (jsSortBy_pairwise childLt childLt_asym childLt_trans l).imp ?_
  intro a b hab
  simp only [childLt, decide_eq_false_iff_not] at hab
  omega

theorem insertBy_filter_childLt (x : HNode) (l : List HNode) (k : Nat)
    (hsorted : l.Pairwise (fun a b => childLt b a = false)) :
    (insertBy childLt x l).filter (fun c => ownItemCount c == k) =
      if ownItemCount x == k then
        l.filter (fun c => ownItemCount c == k) ++ [x]
      else l.filter (fun c => ownItemCount c == k) := by
  induction l with
  | nil =>
    simp only [insertBy, List.filter_nil]
    by_cases hx : (ownItemCount x == k) = true <;> simp [List.filter, hx]
  | cons y ys ih =>
    rcases List.pairwise_cons.mp hsorted with ⟨hy, hys⟩
    by_cases hlt : childLt x y = true
    · simp only [insertBy, hlt, if_true]
      have hgt : ownItemCount x > ownItemCount y := by
        simpa [childLt] using hlt
      by_cases hx : (ownItemCount x == k) = true
      · have hnil : (y :: ys).filter (fun c => ownItemCount c == k) = [] := by
          rw [List.filter_eq_nil_iff]
          intro z hz
          simp only [List.mem_cons] at hz
          simp only [beq_iff_eq]
          have hx' : ownItemCount x = k := by simpa using hx
          rcases hz with rfl | hz
          · omega
          · have hzly := hy z hz
            simp only [childLt, decide_eq_false_iff_not] at hzly
            omega
        rw [if_pos hx]
        simp only [List.filter, hx] at hnil ⊢
        rw [hnil]
        simp
      · rw [Bool.not_eq_true] at hx
        rw [if_neg (by simp [hx])]
        simp only [List.filter, hx]
    · rw [Bool.not_eq_true] at hlt
      simp only [insertBy, hlt, Bool.false_eq_true, if_false]
      have hih := ih hys
      by_cases hyk : (ownItemCount y == k) = true
      · simp only [List.filter, hyk, hih]
        by_cases hx : (ownItemCount x == k) = true
        · simp [hx]
        · rw [Bool.not_eq_true] at hx
          simp [hx]
      · rw [Bool.not_eq_true] at hyk
        simp only [List.filter, hyk, hih]

theorem foldl_insertBy_filter_childLt (l acc : List HNode) (k : Nat)
    (h : acc.Pairwise (fun a b => childLt b a = false)) :
    (l.foldl (fun a x => insertBy childLt x a) acc).filter
        (fun c => ownItemCount c == k) =
      acc.filter (fun c => ownItemCount c == k) ++
        l.filter (fun c => ownItemCount c == k) := by
  induction l generalizing acc with
  | nil => simp
  | cons x l ih =>
    have hstep := insertBy_filter_childLt x acc k h
    have hsorted := insertBy_pairwise childLt childLt_asym childLt_trans x acc h
    simp only [List.foldl_cons, ih _ hsorted, hstep]
    by_cases hx : (ownItemCount x == k) = true
    · simp [List.filter, hx]
    · rw [Bool.not_eq_true] at hx
      simp [List.filter, hx]

/-- Stability: equal-count siblings keep their pre-sort relative order
(the sorted list restricted to any fixed own-item count equals the original
list so restricted). -/
theorem jsSortBy_childLt_stable (cs : List HNode) (k : Nat) :
    (jsSortBy childLt cs).filter (fun c => ownItemCount c == k) =
      cs.filter (fun c => ownItemCount c == k) := by
  have h := foldl_insertBy_filter_childLt cs [] k (by simp)
  simpa [jsSortBy] using h

theorem ownItemCount_sumNode (c : HNode) :
    ownItemCount (sumNode c) = ownItemCount c := by
  cases c with
  | node d v cs => rfl

mutual
theorem sortNode_sorted (t : HNode) :
    ∀ s ∈ subtrees (sortNode t),
      s.children.Pairwise (fun a b => ownItemCount b ≤ ownItemCount a) := by
  cases t with
  | node d v cs =>
    intro s hs
    rw [show sortNode (HNode.node d v cs) =
      HNode.node d v (jsSortBy childLt (sortList cs)) from rfl] at hs
    simp only [subtrees, List.mem_cons] at hs
    rcases hs with rfl | hs
    · simpa only [HNode.children] using
        jsSortBy_childLt_sorted (sortList cs)
    · rcases (mem_subtreesOf s _).mp hs with ⟨c', hc', hsc⟩
      have hc'' : c' ∈ sortList cs := (mem_jsSortBy childLt c' _).mp hc'
      exact sortList_sorted cs s ((mem_subtreesOf s _).mpr ⟨c', hc'', hsc⟩)
theorem sortList_sorted (cs : List HNode) :
    ∀ s ∈ subtreesOf (sortList cs),
      s.children.Pairwise (fun a b => ownItemCount b ≤ ownItemCount a) := by
  cases cs with
  | nil => intro s hs; cases hs
  | cons c rest =>
    intro s hs
    rw [show subtreesOf (sortList (c :: rest)) =
      subtrees (sortNode c) ++ subtreesOf (sortList rest) from rfl,
      List.mem_append] at hs
    rcases hs with hs | hs
    · exact sortNode_sorted c s hs
    · exact sortList_sorted rest s hs
end

mutual
theorem sumNode_sorted (u : HNode)
    (h : ∀ s ∈ subtrees u,
      s.children.Pairwise (fun a b => ownItemCount b ≤ ownItemCount a)) :
    ∀ s ∈ subtrees (sumNode u),
      s.children.Pairwise (fun a b => ownItemCount b ≤ ownItemCount a) := by
  cases u with
  | node d v cs =>
    intro s hs
    rw [show sumNode (HNode.node d v cs) =
      HNode.node d (some (sumAccessor d + childValueSum (sumList cs)))
        (sumList cs) from rfl] at hs
    simp only [subtrees, List.mem_cons] at hs
    rcases hs with rfl | hs
    · have hhead := h _ (self_mem_subtrees (HNode.node d v cs))
      simp only [HNode.children] at hhead ⊢
      rw [sumList_eq_map]
      exact (List.pairwise_map.mpr (hhead.imp (by
        intro a b hab
        rw [ownItemCount_sumNode, ownItemCount_sumNode]
        exact hab)))
    · exact sumList_sorted_pres cs
        (fun s' hs' => h s' (by
          simp only [subtrees, List.mem_cons]
          exact Or.inr hs')) s hs
theorem sumList_sorted_pres (cs : List HNode)
    (h : ∀ s ∈ subtreesOf cs,
      s.children.Pairwise (fun a b => ownItemCount b ≤ ownItemCount a)) :
    ∀ s ∈ subtreesOf (sumList cs),
      s.children.Pairwise (fun a b => ownItemCount b ≤ ownItemCount a) := by
  cases cs with
  | nil => intro s hs; cases hs
  | cons c rest =>
    intro s hs
    rw [show subtreesOf (sumList (c :: rest)) =
      subtrees (sumNode c) ++ subtreesOf (sumList rest) from rfl,
      List.mem_append] at hs
    rcases hs with hs | hs
    · exact sumNode_sorted c
        (fun s' hs' => h s' (by
          rw [show subtreesOf (c :: rest) =
            subtrees c ++ subtreesOf rest from rfl, List.mem_append]
          exact Or.inl hs')) s hs
    · exact sumList_sorted_pres rest
        (fun s' hs' => h s' (by
          rw [show subtreesOf (c :: rest) =
            subtrees c ++ subtreesOf rest from rfl, List.mem_append]
          exact Or.inr hs')) s hs
end

/-! ## C8 -/

/-- C8 counterexample: on a flat list where the root's children are a leaf
`L` (1 own item, subtree total 1) and an internal node `I` (0 own items,
subtree total 5), the Tree Builder orders `L` before `I`: the children's
subtree item totals come out as `[1, 5]`, which is not a non-increasing
sequence, so siblings are NOT ordered by descending subtree item count. -/
theorem claim8_counterexample :
    (buildTree flatCex).map (fun t => (t.children.map leafItemSum,
      decide (t.children.Pairwise
        (fun a b => leafItemSum b ≤ leafItemSum a)))) =
      some ([1, 5], false) := by
  decide

/-- C8 amended: in every tree the Tree Builder produces, the children of
every node are ordered by DESCENDING OWN item count (`items.length` of the
node itself, internal nodes counting 0) — not by subtree total — and the
engine sort is stable: restricted to any fixed own-item count, the sorted
sibling list equals the pre-sort sibling list. -/
theorem claim8_amended :
    (∀ (ns : List TMCFlatNode) (tr : HNode), buildTree ns = some tr →
      ∀ s ∈ subtrees tr,
        s.children.Pairwise (fun a b => ownItemCount b ≤ ownItemCount a)) ∧
    (∀ (cs : List HNode) (k : Nat),
      (jsSortBy childLt cs).filter (fun c => ownItemCount c == k) =
        cs.filter (fun c => ownItemCount c == k)) := by
  constructor
  · intro ns tr htr
    rcases hstrat : stratify ns with _ | t0
    · rw [buildTree, hstrat] at htr
      cases htr
    · rw [buildTree, hstrat] at htr
      simp only [Option.map_some', Option.some.injEq] at htr
      subst htr
      exact sumNode_sorted (sortNode t0) (sortNode_sorted t0)
  · exact jsSortBy_childLt_stable

/-- C8 witness: the amended ordering theorem applied to the concrete flat
list, whose built tree exists and has its root children in non-increasing
own-item order. -/
theorem claim8_witness :
    ∃ tr, buildTree flatCex = some tr ∧
      tr.children.Pairwise (fun a b => ownItemCount b ≤ ownItemCount a) := by
  rcases h : buildTree flatCex with _ | tr
  · have : (buildTree flatCex).isSome = true := by decide
    rw [h] at this
    cases this
  · exact ⟨tr, rfl, claim8_amended.1 flatCex tr h tr (self_mem_subtrees tr)⟩

/-! ## The composite category key (C4) -/

theorem str_append_ne (a b : String) (h : a ≠ "") : a ++ b ≠ "" := by
  intro hc
  apply h
  have hd : (a ++ b).data = [] := by rw [hc]
  rw [String.data_append] at hd
  rcases List.append_eq_nil.mp hd with ⟨h1, h2⟩
  exact String.ext h1

theorem hiLoPiece_ne (thresholds : List (String × ℚ)) (p : String × ℚ) :
    hiLoPiece thresholds p ≠ "" := by
  unfold hiLoPiece
  by_cases h : hiLoTest thresholds p.1 p.2 = true
  · simp only [h, if_true]
    exact str_append_ne _ _ (str_append_ne _ _ (by decide))
  · rw [Bool.not_eq_true] at h
    simp only [h, Bool.false_eq_true, if_false]
    exact str_append_ne _ _ (str_append_ne _ _ (by decide))

theorem foldl_step_aux {α : Type} (piece : α → String) (L : List α) :
    ∀ acc : String, acc ≠ "" →
      L.foldl (fun acc p =>
        (if acc == "" then "" else acc ++ "-") ++ piece p) acc =
        dashJoin (acc :: L.map piece) := by
  induction L with
  | nil => intro acc _; rfl
  | cons a L ih =>
    intro acc h
    have hbeq : (acc == "") = false := by
      rw [beq_eq_false_iff_ne]
      exact h
    rw [List.foldl_cons]
    rw [show (if acc == "" then "" else acc ++ "-") ++ piece a =
      acc ++ "-" ++ piece a from by rw [hbeq]; simp]
    rw [ih _ (str_append_ne _ _ (str_append_ne _ _ h))]
    rw [List.map_cons]
    cases hL : L.map piece with
    | nil => rfl
    | cons r rs =>
      show dashJoin ((acc ++ "-" ++ piece a) :: r :: rs) =
        dashJoin (acc :: piece a :: r :: rs)
      show (acc ++ "-" ++ piece a) ++ "-" ++ dashJoin (r :: rs) =
        acc ++ "-" ++ (piece a ++ "-" ++ dashJoin (r :: rs))
      simp [String.append_assoc]

theorem foldl_step_dashJoin (thresholds : List (String × ℚ))
    (L : List (String × ℚ)) :
    L.foldl (fun acc p =>
      (if acc == "" then "" else acc ++ "-") ++ hiLoPiece thresholds p) "" =
      dashJoin (L.map (hiLoPiece thresholds)) := by
  cases L with
  | nil => rfl
  | cons a L =>
    rw [List.foldl_cons]
    rw [show (if ("" : String) == "" then "" else ("" : String) ++ "-") ++
      hiLoPiece thresholds a = hiLoPiece thresholds a from by simp]
    exact foldl_step_aux (hiLoPiece thresholds) L _ (hiLoPiece_ne thresholds a)

theorem getA_of_mem_nodup {α : Type} (m : List (String × α))
    (hnodup : (m.map Prod.fst).Nodup) (q : String × α) (hq : q ∈ m) :
    getA m q.1 = some q.2 := by
  induction m with
  | nil => cases hq
  | cons p rest ih =>
    simp only [List.map_cons, List.nodup_cons] at hnodup
    simp only [List.mem_cons] at hq
    rcases hq with rfl | hq
    · simp [getA]
    · have hne : ¬ (p.1 == q.1) = true := by
        simp only [beq_iff_eq]
        intro hc
        exact hnodup.1 (hc ▸ List.mem_map_of_mem Prod.fst hq)
      simp only [getA, hne, Bool.false_eq_true, if_false]
      exact ih hnodup.2 hq

theorem assoc_eq_keys_map (fcounts : List (String × ℚ))
    (L : List (String × ℚ)) (h : ∀ q ∈ L, q.2 = getD0 fcounts q.1) :
    L = (L.map Prod.fst).map (fun f => (f, getD0 fcounts f)) := by
  induction L with
  | nil => rfl
  | cons q L ih =>
    simp only [List.map_cons]
    have hq := h q (List.mem_cons_self _ _)
    rw [← ih (fun q' hq' => h q' (List.mem_cons_of_mem _ hq'))]
    congr 1
    rcases q with ⟨f, v⟩
    simp only at hq
    rw [hq]

theorem keyLt_asym (a b : String × ℚ) :
    decide (a.1 < b.1) = true → decide (b.1 < a.1) = false := by
  simp only [decide_eq_true_eq, decide_eq_false_iff_not]
  exact lt_asymm

theorem keyLt_trans (a b c : String × ℚ) :
    decide (a.1 < b.1) = true → decide (c.1 < b.1) = false →
      decide (a.1 < c.1) = true := by
  simp only [decide_eq_true_eq, decide_eq_false_iff_not]
  intro h1 h2
  exact lt_of_lt_of_le h1 (not_lt.mp h2)

theorem strLt_asym (a b : String) :
    decide (a < b) = true → decide (b < a) = false := by
  simp only [decide_eq_true_eq, decide_eq_false_iff_not]
  exact lt_asymm

theorem strLt_trans (a b c : String) :
    decide (a < b) = true → decide (c < b) = false →
      decide (a < c) = true := by
  simp only [decide_eq_true_eq, decide_eq_false_iff_not]
  intro h1 h2
  exact lt_of_lt_of_le h1 (not_lt.mp h2)

/-- C4: for a cell whose feature record has no duplicate keys and covers the
(duplicate-free, non-empty) active set, with a positive threshold stored for
every active feature, the code's composite category key equals the key the
spec describes: sort the active feature names lexicographically and join
`high-<name>` / `low-<name>` pieces (value ≥ threshold means high) with `-`;
and on the scenario (threshold 3 for the single active feature `F`, items
with values 5 and 1) the leaf's featureCount is
`{high-F: {quantity: 1}, low-F: {quantity: 1}}`. -/
theorem claim4_category_key :
    (∀ (thresholds : List (String × ℚ)) (active : List String)
        (fcounts : List (String × ℚ)),
      active ≠ [] → active.Nodup → (fcounts.map Prod.fst).Nodup →
      (∀ f ∈ active, f ∈ fcounts.map Prod.fst) →
      (∀ f ∈ active, ∃ τ, getA thresholds f = some τ ∧ 0 < τ) →
      cellKey thresholds active fcounts =
        specCellKey thresholds active fcounts) ∧
    leafHiLos [("F", 3)] ["F"] [⟨"1", [("F", 5)]⟩, ⟨"2", [("F", 1)]⟩] =
      [("high-F", ⟨some 1, "high-F"⟩), ("low-F", ⟨some 1, "low-F"⟩)] := by
  constructor
  case right => decide
  intro thresholds active fcounts _hne hndA hndF hcover hthr
  have hAkeysNodup :
      ((fcounts.filter (fun p => active.contains p.1)).map Prod.fst).Nodup :=
    hndF.sublist ((List.filter_sublist fcounts).map Prod.fst)
  have hmemAf : ∀ x,
      x ∈ (fcounts.filter (fun p => active.contains p.1)).map Prod.fst ↔
        x ∈ active := by
    intro x
    constructor
    · intro hx
      rcases List.mem_map.mp hx with ⟨q, hq, rfl⟩
      rcases List.mem_filter.mp hq with ⟨-, hq2⟩
      simpa using hq2
    · intro hx
      rcases List.mem_map.mp (hcover x hx) with ⟨q, hq, rfl⟩
      exact List.mem_map_of_mem Prod.fst
        (List.mem_filter.mpr ⟨hq, by simpa using hx⟩)
  have hpermKeys : List.Perm
      ((fcounts.filter (fun p => active.contains p.1)).map Prod.fst) active :=
    (List.perm_ext_iff_of_nodup hAkeysNodup hndA).mpr hmemAf
  have hsortedA_pair := jsSortBy_pairwise (fun a b : String × ℚ =>
    decide (a.1 < b.1)) keyLt_asym keyLt_trans
    (fcounts.filter (fun p => active.contains p.1))
  have hsortedA_keysNodup :
      ((jsSortBy (fun a b : String × ℚ => decide (a.1 < b.1))
        (fcounts.filter (fun p => active.contains p.1))).map
          Prod.fst).Nodup :=
    (((jsSortBy_perm _ _).map Prod.fst).nodup_iff).mpr hAkeysNodup
  have hkeysSortedStrict :
      ((jsSortBy (fun a b : String × ℚ => decide (a.1 < b.1))
        (fcounts.filter (fun p => active.contains p.1))).map
          Prod.fst).Pairwise (· < ·) := by
    have h1 : ((jsSortBy (fun a b : String × ℚ => decide (a.1 < b.1))
        (fcounts.filter (fun p => active.contains p.1))).map
          Prod.fst).Pairwise (· ≤ ·) := by
      refine List.pairwise_map.mpr (hsortedA_pair.imp ?_)
      intro a b hab
      simp only [decide_eq_false_iff_not] at hab
      exact not_lt.mp hab
    exact (h1.and hsortedA_keysNodup).imp
      (fun hab => lt_of_le_of_ne hab.1 hab.2)
  have hactSortedStrict :
      (jsSortBy (fun a b : String => decide (a < b)) active).Pairwise
        (· < ·) := by
    have h1 : (jsSortBy (fun a b : String => decide (a < b)) active).Pairwise
        (· ≤ ·) := by
      refine (jsSortBy_pairwise _ strLt_asym strLt_trans active).imp ?_
      intro a b hab
      simp only [decide_eq_false_iff_not] at hab
      exact not_lt.mp hab
    have h2 : (jsSortBy (fun a b : String => decide (a < b)) active).Nodup :=
      ((jsSortBy_perm _ active).nodup_iff).mpr hndA
    exact (h1.and h2).imp (fun hab => lt_of_le_of_ne hab.1 hab.2)
  have hkeysEq : (jsSortBy (fun a b : String × ℚ => decide (a.1 < b.1))
      (fcounts.filter (fun p => active.contains p.1))).map Prod.fst =
        jsSortBy (fun a b : String => decide (a < b)) active := by
    haveI : IsAntisymm String (· < ·) :=
      ⟨fun a b h1 h2 => absurd h2 (lt_asymm h1)⟩
    refine List.eq_of_perm_of_sorted ?_ hkeysSortedStrict hactSortedStrict
    exact (((jsSortBy_perm _ _).map Prod.fst).trans hpermKeys).trans
      (jsSortBy_perm _ active).symm
  have hvals : ∀ q ∈ jsSortBy (fun a b : String × ℚ => decide (a.1 < b.1))
      (fcounts.filter (fun p => active.contains p.1)),
      q.2 = getD0 fcounts q.1 := by
    intro q hq
    have hqA := (mem_jsSortBy _ q _).mp hq
    have hqf : q ∈ fcounts := (List.mem_filter.mp hqA).1
    rw [getD0, getA_of_mem_nodup fcounts hndF q hqf]
    rfl
  have hstruct : jsSortBy (fun a b : String × ℚ => decide (a.1 < b.1))
      (fcounts.filter (fun p => active.contains p.1)) =
      (jsSortBy (fun a b : String => decide (a < b)) active).map
        (fun f => (f, getD0 fcounts f)) := by
    rw [← hkeysEq]
    exact assoc_eq_keys_map fcounts _ hvals
  rw [show cellKey thresholds active fcounts =
    dashJoin ((jsSortBy (fun a b : String × ℚ => decide (a.1 < b.1))
      (fcounts.filter (fun p => active.contains p.1))).map
        (hiLoPiece thresholds)) from foldl_step_dashJoin thresholds _]
  rw [hstruct, List.map_map]
  unfold specCellKey
  congr 1
  apply List.map_congr_left
  intro f hf
  have hfa : f ∈ active := (mem_jsSortBy _ f active).mp hf
  rcases hthr f hfa with ⟨τ, hτ, hτpos⟩
  show hiLoPiece thresholds (f, getD0 fcounts f) = _
  unfold hiLoPiece hiLoTest
  rw [hτ]
  simp only [getD0, Option.getD_some]
  by_cases hc : τ ≤ (getA fcounts f).getD 0
  · have hv0 : ((getA fcounts f).getD 0 != 0) = true := by
      simp only [bne_iff_ne]
      intro h0
      rw [h0] at hc
      exact absurd (lt_of_lt_of_le hτpos hc) (lt_irrefl 0)
    have hge : decide ((getA fcounts f).getD 0 ≥ τ) = true := by
      simpa using hc
    simp [hv0, hge, hc]
  · have hge : decide ((getA fcounts f).getD 0 ≥ τ) = false := by
      simpa using hc
    simp [hge, hc]

/-- C4 witness: the key theorem applied at the scenario: single active
feature `F` at threshold 3, item value 5 — the code key, the spec key and
the literal string `high-F` all agree. -/
theorem claim4_witness :
    cellKey [("F", 3)] ["F"] [("F", 5)] =
      specCellKey [("F", 3)] ["F"] [("F", 5)] ∧
    cellKey [("F", 3)] ["F"] [("F", 5)] = "high-F" := by
  constructor
  · exact claim4_category_key.1 [("F", 3)] ["F"] [("F", 5)]
      (by decide) (by decide) (by decide) (by decide)
      (fun f hf => by
        simp only [List.mem_singleton] at hf
        subst hf
        exact ⟨3, rfl, by decide⟩)
  · decide
